import Mathlib

/-!
Verification development for the AUS submission-schedule optimizer.

The Python source is shallowly embedded: DataFrame rows become structures,
row iteration becomes list traversal, floats become exact rationals (ℚ),
pandas `Series.get(key, default)` becomes `Option.getD`, and the external
PuLP MILP solver becomes an oracle parameter returning a status code and
variable values, exactly as `prob.solve()` does.  Clock times of day are
embedded as seconds after midnight (the `%H:%M:%S` strings parsed by
`pd.to_datetime(...).dt.time`), so `start_time.hour` is `startSec / 3600`.
-/

namespace Sched

/-- Time-of-day category of a shift start time (seconds after midnight).
Mirrors `categorize_shift_time` in compute_employee_profile.py lines 28-37:
morning for hour in [6,12), afternoon [12,18), evening [18,22), else night. -/
def timeCategoryOf (startSec : ℕ) : String :=
  let hour := startSec / 3600
  if 6 ≤ hour ∧ hour < 12 then "morning"
  else if 12 ≤ hour ∧ hour < 18 then "afternoon"
  else if 18 ≤ hour ∧ hour < 22 then "evening"
  else "night"

/-- Midnight-aware shift duration in hours.  Mirrors `calculate_hours`
(compute_employee_profile.py lines 44-51 and preprocessing.py lines 27-40):
if the end time-of-day is strictly earlier than the start, one day is added
before subtracting; the difference in seconds is divided by 3600. -/
def durationHoursOf (startSec endSec : ℕ) : ℚ :=
  if endSec < startSec then ((endSec + 86400 - startSec : ℕ) : ℚ) / 3600
  else ((endSec - startSec : ℕ) : ℚ) / 3600

/-- Duration category.  Mirrors `categorize_duration`
(compute_employee_profile.py lines 55-61): short for ≤ 6 h, medium for ≤ 10 h,
long otherwise. -/
def durationCategoryOf (hours : ℚ) : String :=
  if hours ≤ 6 then "short"
  else if hours ≤ 10 then "medium"
  else "long"

/-- One row of a shift DataFrame as consumed by the feature extractor and the
profile builder.  The `Option` fields model columns that may be absent from
the frame: `parsedStart` is `ShiftStartTime_parsed`, `durationHours` is
`ShiftDurationHours`, and the three derived categorical columns follow. -/
structure RawShift where
  scheduleDetailID : ℤ
  dayNum : ℤ
  jobNumber : ℤ
  employeeNumber : Option ℤ
  startSec : ℕ
  endSec : ℕ
  parsedStart : Option ℕ := none
  durationHours : Option ℚ := none
  timeCategory : Option String := none
  durationCategory : Option String := none
  shiftType : Option String := none
deriving DecidableEq, Repr

/-- The feature extractor, `extract_shift_features`
(compute_employee_profile.py lines 11-68), acting on one row.  The parsed
start time is computed only when the column is absent; the time category is
always recomputed from the parsed start; the duration is computed from the
raw start/end times only when the column is absent; the duration category and
the composite shift type are always recomputed. -/
def extract_shift_features (r : RawShift) : RawShift :=
  let parsed := r.parsedStart.getD r.startSec
  let timeCat := timeCategoryOf parsed
  let dur := r.durationHours.getD (durationHoursOf r.startSec r.endSec)
  let durCat := durationCategoryOf dur
  { r with
    parsedStart := some parsed
    timeCategory := some timeCat
    durationHours := some dur
    durationCategory := some durCat
    shiftType := some (timeCat ++ "_" ++ durCat) }

/-- Association-list lookup; the embedding of a Python `dict` lookup and of
the `key in dict` / `col in row` membership tests. -/
def alookup {α β : Type} [DecidableEq α] : List (α × β) → α → Option β
  | [], _ => none
  | p :: l, a => if p.1 = a then some p.2 else alookup l a

/-- An employee profile row as built by `compute_compatibility`
(compute_employee_profile.py lines 104-156).  In the source the five
distributions are flat columns named with injective prefix-tagged patterns
(Day{d}_Prob, Time_{t}_Prob, Duration_{d}_Prob, Job_{j}_Prob,
ShiftType_{s}_Prob); they are embedded as five association lists keyed by the
category value, so that the scorer's column-membership test becomes a key
lookup. -/
structure EmployeeProfile where
  employeeNumber : ℤ
  totalShifts : ℕ
  dayProbs : List (ℤ × ℚ)
  timeProbs : List (String × ℚ)
  durationProbs : List (String × ℚ)
  jobProbs : List (ℤ × ℚ)
  shiftTypeProbs : List (String × ℚ)
deriving DecidableEq, Repr, Inhabited

/-- The profile of one employee, given the feature-extracted historical
filled shifts `fs` and the globally observed category universes.  Each
dimension counts the employee's own occurrences (`value_counts`) against the
global universe with 0 for unobserved categories, divided by the employee's
total shift count (compute_employee_profile.py lines 107-156). -/
def buildProfile (fs : List RawShift) (allDays : List ℤ) (allTimes : List String)
    (allDurations : List String) (allJobs : List ℤ) (allTypes : List String)
    (e : ℤ) : EmployeeProfile :=
  let empShifts := fs.filter (fun r => r.employeeNumber = some e)
  let total := empShifts.length
  { employeeNumber := e
    totalShifts := total
    dayProbs := allDays.map (fun d =>
      (d, ((empShifts.filter (fun r => r.dayNum = d)).length : ℚ) / total))
    timeProbs := allTimes.map (fun t =>
      (t, ((empShifts.filter (fun r => r.timeCategory = some t)).length : ℚ) / total))
    durationProbs := allDurations.map (fun c =>
      (c, ((empShifts.filter (fun r => r.durationCategory = some c)).length : ℚ) / total))
    jobProbs := allJobs.map (fun j =>
      (j, ((empShifts.filter (fun r => r.jobNumber = j)).length : ℚ) / total))
    shiftTypeProbs := allTypes.map (fun t =>
      (t, ((empShifts.filter (fun r => r.shiftType = some t)).length : ℚ) / total)) }

/-- The employee profile builder, `compute_compatibility`
(compute_employee_profile.py lines 71-161): restrict to rows with a non-null
employee, extract features, take the per-dimension universes as the distinct
values observed across all employees, and build one profile per distinct
employee (pandas sorts the universes; sorting only permutes the association
lists and is dropped here).  Employees contribute a profile only if they
appear, and the `total_shifts == 0` guard of line 111 is kept as a filter. -/
def compute_compatibility (historicalData : List RawShift) : List EmployeeProfile :=
  let filledShifts := historicalData.filter (fun r => r.employeeNumber.isSome)
  if filledShifts.isEmpty then []
  else
    let fs := filledShifts.map extract_shift_features
    let uniqueEmployees := (fs.filterMap (fun r => r.employeeNumber)).dedup
    let allDays := (fs.map (fun r => r.dayNum)).dedup
    let allTimes := (fs.filterMap (fun r => r.timeCategory)).dedup
    let allDurations := (fs.filterMap (fun r => r.durationCategory)).dedup
    let allJobs := (fs.map (fun r => r.jobNumber)).dedup
    let allTypes := (fs.filterMap (fun r => r.shiftType)).dedup
    (uniqueEmployees.filter (fun e =>
        ¬ (fs.filter (fun r => r.employeeNumber = some e)).length = 0)).map
      (buildProfile fs allDays allTimes allDurations allJobs allTypes)

/-- The compatibility scorer, `get_compatibility_score`
(compute_employee_profile.py lines 164-221): a running score starts at 0 and
each of the five terms is added only when the profile has the corresponding
column, with fixed weights day 0.3, time 0.25, duration 0.15, job 0.2,
shift type 0.1. -/
def get_compatibility_score (p : EmployeeProfile) (shiftDay : ℤ)
    (shiftTimeCategory : String) (shiftDurationCategory : String)
    (shiftJob : ℤ) (shiftType : String) : ℚ :=
  let s1 : ℚ := match alookup p.dayProbs shiftDay with
    | some v => (0.3 : ℚ) * v
    | none => 0
  let s2 : ℚ := match alookup p.timeProbs shiftTimeCategory with
    | some v => (0.25 : ℚ) * v
    | none => 0
  let s3 : ℚ := match alookup p.durationProbs shiftDurationCategory with
    | some v => (0.15 : ℚ) * v
    | none => 0
  let s4 : ℚ := match alookup p.jobProbs shiftJob with
    | some v => (0.2 : ℚ) * v
    | none => 0
  let s5 : ℚ := match alookup p.shiftTypeProbs shiftType with
    | some v => (0.1 : ℚ) * v
    | none => 0
  s1 + s2 + s3 + s4 + s5

/-- A row of the `filled_shifts` DataFrame as read by the constraint
accumulator of `solve_assignment` (optimizer.py lines 135-153) and by
`validate_constraints` (validator.py lines 183-199): only `EmployeeNumber`
(nullable), `DayNum`, and the possibly absent `ShiftDurationHours` column are
consulted. -/
structure FilledShift where
  employeeNumber : Option ℤ
  dayNum : ℤ
  shiftDurationHours : Option ℚ
deriving DecidableEq, Repr

/-- Duration read from a filled-shift row:
`shift.get('ShiftDurationHours', 8.0)` (optimizer.py line 140, validator.py
lines 90 and 186) — an absent column silently yields the default 8.0. -/
def filledDuration (s : FilledShift) : ℚ :=
  s.shiftDurationHours.getD 8

/-- Accumulated weekly hours of employee `e` over the filled shifts
(`employee_week_hours`, optimizer.py lines 142-144; all shifts are in the
single week 0). -/
def empWeekHours (fs : List FilledShift) (e : ℤ) : ℚ :=
  ((fs.filter (fun s => s.employeeNumber = some e)).map filledDuration).sum

/-- Accumulated set of distinct work days of employee `e`
(`employee_week_days`, optimizer.py lines 146-149). -/
def empWeekDays (fs : List FilledShift) (e : ℤ) : Finset ℤ :=
  ((fs.filter (fun s => s.employeeNumber = some e)).map (fun s => s.dayNum)).toFinset

/-- Accumulated per-day shift count of employee `e`
(`employee_day_shifts`, optimizer.py lines 151-153). -/
def empDayShifts (fs : List FilledShift) (e : ℤ) (d : ℤ) : ℕ :=
  (fs.filter (fun s => s.employeeNumber = some e ∧ s.dayNum = d)).length

/-- Whether some observed (employee, day) pair of `e` has more than one
filled shift (`has_daily_violation`, optimizer.py lines 170-172). -/
def hasDailyViolation (fs : List FilledShift) (e : ℤ) : Bool :=
  fs.any (fun s => s.employeeNumber = some e ∧ 1 < empDayShifts fs e s.dayNum)

/-- The pre-exclusion test of optimizer.py lines 174-186: an employee already
at or over any limit (hours ≥ 40, distinct days ≥ 5, or some day with more
than one shift) is excluded from the assignable pool. -/
def isExcluded (fs : List FilledShift) (e : ℤ) : Bool :=
  if 40 ≤ empWeekHours fs e then true
  else if 5 ≤ (empWeekDays fs e).card then true
  else hasDailyViolation fs e

/-- A shift is identified by the pair (ScheduleDetailID, DayNum). -/
abbrev ShiftId := ℤ × ℤ

/-- A row of the `unfilled_shifts` DataFrame as read by `solve_assignment`:
its identity pair, the attributes feeding the compatibility objective, and
`ShiftDurationHours`, which optimizer.py line 117 reads without a default. -/
structure UnfilledShift where
  scheduleDetailID : ℤ
  dayNum : ℤ
  jobNumber : ℤ
  startSec : ℕ
  endSec : ℕ
  shiftDurationHours : ℚ
deriving DecidableEq, Repr

/-- Identity pair of an unfilled shift (optimizer.py line 110). -/
def shiftIdOf (u : UnfilledShift) : ShiftId :=
  (u.scheduleDetailID, u.dayNum)

/-- The `shift_ids` list of optimizer.py lines 108-111. -/
def shiftIdsOf (us : List UnfilledShift) : List ShiftId :=
  us.map shiftIdOf

/-- The `shift_durations` dict of optimizer.py lines 114-117; on duplicate
ids the later row overwrites, hence the reversed find.  A key never inserted
is embedded as 0 (the code would raise there; the solver only consults keys
present in `shift_ids`). -/
def shiftDurationLookup (us : List UnfilledShift) (s : ShiftId) : ℚ :=
  match us.reverse.find? (fun u => shiftIdOf u = s) with
  | some u => u.shiftDurationHours
  | none => 0

/-- The employee list of optimizer.py line 107
(`employee_profiles['EmployeeNumber'].unique()`; pandas also sorts, which
only permutes iteration order). -/
def employeesOf (ps : List EmployeeProfile) : List ℤ :=
  (ps.map (fun p => p.employeeNumber)).dedup

/-- The `valid_employees` pool after pre-exclusion
(optimizer.py lines 157-186). -/
def validEmployeesOf (ps : List EmployeeProfile) (fs : List FilledShift) : List ℤ :=
  (employeesOf ps).filter (fun e => ¬ isExcluded fs e)

/-- The compatibility score of one (employee, unfilled shift) pair as
computed by `compute_compatibility_matrix` (optimizer.py lines 29-56): the
shift is feature-extracted and the five attributes are scored against the
profile.  `ShiftDurationHours` is present on the unfilled rows, so the
extractor keeps it and derives the categories from it and from the raw start
time. -/
def pairScore (p : EmployeeProfile) (u : UnfilledShift) : ℚ :=
  let timeCat := timeCategoryOf u.startSec
  let durCat := durationCategoryOf u.shiftDurationHours
  get_compatibility_score p u.dayNum timeCat durCat u.jobNumber
    (timeCat ++ "_" ++ durCat)

/-- The `compatibility` dict of optimizer.py lines 120-124, keyed by
(employee, shift id); on duplicates the later row overwrites.  The objective
of line 209 reads it with default 0. -/
def compatibilityLookup (us : List UnfilledShift) (ps : List EmployeeProfile)
    (e : ℤ) (s : ShiftId) : ℚ :=
  match ps.reverse.find? (fun p => p.employeeNumber = e),
      us.reverse.find? (fun u => shiftIdOf u = s) with
  | some p, some u => pairScore p u
  | _, _ => 0

/-- Everything `solve_assignment` hands to the MILP model of optimizer.py
lines 198-277: the post-exclusion employee pool, the shift ids, the duration
and compatibility lookups, and the accumulated state entering constraints
C2-C4. -/
structure MilpProblem where
  validEmployees : List ℤ
  shiftIds : List ShiftId
  durations : ShiftId → ℚ
  compat : ℤ → ShiftId → ℚ
  preHours : ℤ → ℚ
  preDaysCard : ℤ → ℕ
  preDayCount : ℤ → ℤ → ℕ

/-- Outcome of `prob.solve()` (optimizer.py line 279): the PuLP status code
(1 optimal, 0 not solved, -1 infeasible, -2 unbounded, -3 undefined) and the
solved `varValue` of each decision variable x[(emp, shift_id)], which is
`None` when the solver set no value. -/
structure SolverResult where
  status : ℤ
  xval : ℤ → ShiftId → Option ℚ

/-- The MILP problem built by `solve_assignment` for given inputs. -/
def mkProblem (us : List UnfilledShift) (ps : List EmployeeProfile)
    (fs : List FilledShift) : MilpProblem :=
  { validEmployees := validEmployeesOf ps fs
    shiftIds := shiftIdsOf us
    durations := shiftDurationLookup us
    compat := compatibilityLookup us ps
    preHours := empWeekHours fs
    preDaysCard := fun e => (empWeekDays fs e).card
    preDayCount := empDayShifts fs }

/-- Extraction test of optimizer.py line 293: a decision variable counts as
assigned when its solved value exists and exceeds 0.5. -/
def isAssigned (val : ℤ → ShiftId → Option ℚ) (e : ℤ) (s : ShiftId) : Bool :=
  match val e s with
  | some q => mkRat 1 2 < q
  | none => false

/-- One step of the extraction loop of optimizer.py lines 290-298: an
assigned variable claims its shift only if no employee claimed it earlier
(`if shift_id not in assignments`); otherwise it is discarded with a
warning. -/
def assignStep (val : ℤ → ShiftId → Option ℚ) (e : ℤ)
    (acc : List (ShiftId × ℤ)) (s : ShiftId) : List (ShiftId × ℤ) :=
  if isAssigned val e s then
    if alookup acc s = none then acc ++ [(s, e)] else acc
  else acc

/-- The inner extraction loop over `shift_ids` for one employee. -/
def assignEmployee (val : ℤ → ShiftId → Option ℚ) (acc : List (ShiftId × ℤ))
    (e : ℤ) (shiftIds : List ShiftId) : List (ShiftId × ℤ) :=
  shiftIds.foldl (assignStep val e) acc

/-- The full extraction of optimizer.py lines 289-298, iterating employees
outside and shifts inside, building the `assignments` dict in insertion
order. -/
def extractAssignments (val : ℤ → ShiftId → Option ℚ) (validEmployees : List ℤ)
    (shiftIds : List ShiftId) : List (ShiftId × ℤ) :=
  validEmployees.foldl (fun acc e => assignEmployee val acc e shiftIds) []

/-- The solver entry point, `solve_assignment` (optimizer.py lines 87-300),
with the MILP solve abstracted as an oracle.  With no valid employees the
empty mapping is returned before the problem is built (lines 194-196); an
infeasible status returns the empty mapping (lines 284-286); every other
status, optimal or not, proceeds to extraction (a non-optimal one after a
logged warning, lines 282-283). -/
def solve_assignment (oracle : MilpProblem → SolverResult)
    (us : List UnfilledShift) (ps : List EmployeeProfile)
    (fs : List FilledShift) : List (ShiftId × ℤ) :=
  let validEmployees := validEmployeesOf ps fs
  if validEmployees.isEmpty then []
  else
    let r := oracle (mkProblem us ps fs)
    if r.status = -1 then []
    else extractAssignments r.xval validEmployees (shiftIdsOf us)

/-- The first employee in iteration order whose solved variable claims
shift `s` — the employee `extractAssignments` assigns to `s`, used to state
its correctness. -/
def firstAssigned (val : ℤ → ShiftId → Option ℚ) (S : List ShiftId) :
    List ℤ → ShiftId → Option ℤ
  | [], _ => none
  | e :: V, s =>
    if s ∈ S ∧ isAssigned val e s = true then some e
    else firstAssigned val S V s

/-- The distinct days occurring among the unfilled shifts
(`days_in_week` of optimizer.py lines 236-239 and `days_with_shifts` of
line 263). -/
def daysOfList (shiftIds : List ShiftId) : Finset ℤ :=
  (shiftIds.map (fun s => s.2)).toFinset

/-- Feasibility of a solved valuation for the binary program formulated in
optimizer.py lines 198-276: `x` are the assignment variables, `dayv` the
auxiliary per-day indicator variables of constraint 3.  The conjuncts are,
in order: both variable families are binary (cat='Binary', lines 206 and
244); each shift is assigned at most once (line 214); weekly hours including
pre-existing hours stay within 40 (lines 217-226); each day indicator
dominates every shift variable on its day (line 250) and is dominated by
their sum (line 251); pre-existing distinct days plus indicator sum stay
within 5 (lines 254-257); and pre-existing same-day counts plus same-day
assignments stay within 1 (lines 261-276). -/
def Feasible (P : MilpProblem) (x : ℤ → ShiftId → ℚ) (dayv : ℤ → ℤ → ℚ) : Prop :=
  (∀ e ∈ P.validEmployees, ∀ s ∈ P.shiftIds, x e s = 0 ∨ x e s = 1) ∧
  (∀ e ∈ P.validEmployees, ∀ d ∈ daysOfList P.shiftIds, dayv e d = 0 ∨ dayv e d = 1) ∧
  (∀ s ∈ P.shiftIds, (P.validEmployees.map (fun e => x e s)).sum ≤ 1) ∧
  (∀ e ∈ P.validEmployees,
    P.preHours e + (P.shiftIds.map (fun s => P.durations s * x e s)).sum ≤ 40) ∧
  (∀ e ∈ P.validEmployees, ∀ s ∈ P.shiftIds, x e s ≤ dayv e s.2) ∧
  (∀ e ∈ P.validEmployees, ∀ d ∈ daysOfList P.shiftIds,
    dayv e d ≤ ((P.shiftIds.filter (fun s => s.2 = d)).map (fun s => x e s)).sum) ∧
  (∀ e ∈ P.validEmployees,
    (P.preDaysCard e : ℚ) + (daysOfList P.shiftIds).sum (fun d => dayv e d) ≤ 5) ∧
  (∀ e ∈ P.validEmployees, ∀ d ∈ daysOfList P.shiftIds,
    (P.preDayCount e d : ℚ)
      + ((P.shiftIds.filter (fun s => s.2 = d)).map (fun s => x e s)).sum ≤ 1)

/-- The shifts an employee received in an extracted assignment mapping. -/
def assignedShiftsOf (m : List (ShiftId × ℤ)) (e : ℤ) : List ShiftId :=
  (m.filter (fun p => p.2 = e)).map (fun p => p.1)

/-- The distinct days an employee received in an extracted assignment
mapping. -/
def newDaysOf (m : List (ShiftId × ℤ)) (e : ℤ) : Finset ℤ :=
  ((assignedShiftsOf m e).map (fun s => s.2)).toFinset

/-- How many shifts on day `d` an employee received in an extracted
assignment mapping. -/
def newCountOn (m : List (ShiftId × ℤ)) (e : ℤ) (d : ℤ) : ℕ :=
  ((assignedShiftsOf m e).filter (fun s => s.2 = d)).length

/-- Result record of `validate_constraints` (validator.py lines 149-242).
Each violation entry keeps the employee (and day) together with the
offending aggregate; the constant week 0 and the constant limits of the
Python dicts are omitted. -/
structure ValidationResult where
  valid : Bool
  weeklyHours : List (ℤ × ℚ)
  workDays : List (ℤ × ℕ)
  dailyShifts : List ((ℤ × ℤ) × ℕ)
  totalViolations : ℕ
deriving Repr

/-- Employees observed among the filled rows, in first-appearance order: the
key set of the `employee_week_hours` and `employee_week_days` dicts. -/
def observedEmps (fs : List FilledShift) : List ℤ :=
  (fs.filterMap (fun s => s.employeeNumber)).dedup

/-- Observed (employee, day) pairs, in first-appearance order: the key set
of the `employee_day_shifts` dict. -/
def observedEmpDays (fs : List FilledShift) : List (ℤ × ℤ) :=
  (fs.filterMap (fun s => s.employeeNumber.map (fun e => (e, s.dayNum)))).dedup

/-- The weekly-hours violation list of validator.py lines 202-209: one
entry per accumulated dict key whose hours strictly exceed 40. -/
def weeklyHoursViolations (fs : List FilledShift) : List (ℤ × ℚ) :=
  (observedEmps fs).filterMap (fun e =>
    if 40 < empWeekHours fs e then some (e, empWeekHours fs e) else none)

/-- The work-days violation list of validator.py lines 211-218: one entry
per accumulated dict key whose distinct-day count strictly exceeds 5. -/
def workDaysViolations (fs : List FilledShift) : List (ℤ × ℕ) :=
  (observedEmps fs).filterMap (fun e =>
    if 5 < (empWeekDays fs e).card then some (e, (empWeekDays fs e).card) else none)

/-- The daily-shifts violation list of validator.py lines 220-227: one
entry per accumulated (employee, day) key whose shift count strictly
exceeds 1. -/
def dailyShiftsViolations (fs : List FilledShift) : List ((ℤ × ℤ) × ℕ) :=
  (observedEmpDays fs).filterMap (fun p =>
    if 1 < empDayShifts fs p.1 p.2 then some (p, empDayShifts fs p.1 p.2) else none)

/-- The constraint validator, `validate_constraints`
(validator.py lines 149-242): restrict to rows with a non-null employee
(a pure restriction — the input is copied, never mutated), return valid on
an empty set, otherwise re-accumulate the three aggregates and report every
dict entry strictly exceeding its limit (40 hours, 5 days, 1 shift per
day); the valid flag holds exactly when the total violation count is 0. -/
def validate_constraints (snapshot : List FilledShift) : ValidationResult :=
  let filledShifts := snapshot.filter (fun s => s.employeeNumber.isSome)
  if filledShifts.isEmpty then
    { valid := true, weeklyHours := [], workDays := [], dailyShifts := []
      totalViolations := 0 }
  else
    let total := (weeklyHoursViolations filledShifts).length
      + (workDaysViolations filledShifts).length
      + (dailyShiftsViolations filledShifts).length
    { valid := total = 0
      weeklyHours := weeklyHoursViolations filledShifts
      workDays := workDaysViolations filledShifts
      dailyShifts := dailyShiftsViolations filledShifts
      totalViolations := total }

/-- Well-formedness of a profile: every stored probability lies in [0,1]
(which C4 establishes for every profile the builder produces). -/
def ProfileWellFormed (p : EmployeeProfile) : Prop :=
  (∀ q ∈ p.dayProbs, 0 ≤ q.2 ∧ q.2 ≤ 1) ∧
  (∀ q ∈ p.timeProbs, 0 ≤ q.2 ∧ q.2 ≤ 1) ∧
  (∀ q ∈ p.durationProbs, 0 ≤ q.2 ∧ q.2 ≤ 1) ∧
  (∀ q ∈ p.jobProbs, 0 ≤ q.2 ∧ q.2 ≤ 1) ∧
  (∀ q ∈ p.shiftTypeProbs, 0 ≤ q.2 ∧ q.2 ≤ 1)

instance (p : EmployeeProfile) : Decidable (ProfileWellFormed p) := by
  unfold ProfileWellFormed
  infer_instance

/-- A row of the preprocessed latest snapshot handed to
`fill_unfilled_shifts` (optimizer.py lines 303-355): identity, the raw
attributes, the duration column (always present after preprocessing), the
nullable employee and the `IsUnfilled` flag. -/
structure SnapshotRow where
  scheduleDetailID : ℤ
  dayNum : ℤ
  jobNumber : ℤ
  startSec : ℕ
  endSec : ℕ
  shiftDurationHours : ℚ
  employeeNumber : Option ℤ
  isUnfilled : Bool
deriving DecidableEq, Repr

/-- View of a snapshot row as an unfilled-shift row for the solver. -/
def toUnfilled (r : SnapshotRow) : UnfilledShift :=
  { scheduleDetailID := r.scheduleDetailID, dayNum := r.dayNum
    jobNumber := r.jobNumber, startSec := r.startSec, endSec := r.endSec
    shiftDurationHours := r.shiftDurationHours }

/-- View of a snapshot row as a filled-shift row for the accumulator. -/
def toFilled (r : SnapshotRow) : FilledShift :=
  { employeeNumber := r.employeeNumber, dayNum := r.dayNum
    shiftDurationHours := some r.shiftDurationHours }

/-- Deduplication of optimizer.py lines 328-331
(`drop_duplicates(subset=['ScheduleDetailID','DayNum'], keep='first')`). -/
def dedupByKeyAux (seen : List ShiftId) : List SnapshotRow → List SnapshotRow
  | [] => []
  | r :: rest =>
    if (r.scheduleDetailID, r.dayNum) ∈ seen then dedupByKeyAux seen rest
    else r :: dedupByKeyAux ((r.scheduleDetailID, r.dayNum) :: seen) rest

/-- Deduplicate snapshot rows keeping the first row per
(ScheduleDetailID, DayNum). -/
def dedupByKey (rows : List SnapshotRow) : List SnapshotRow :=
  dedupByKeyAux [] rows

/-- Application of one assignment (optimizer.py lines 341-353): only the
first row matching the shift id with the `IsUnfilled` flag set receives the
employee and is marked filled. -/
def applyOne (rows : List SnapshotRow) (s : ShiftId) (e : ℤ) : List SnapshotRow :=
  match rows with
  | [] => []
  | r :: rest =>
    if r.scheduleDetailID = s.1 ∧ r.dayNum = s.2 ∧ r.isUnfilled then
      { r with employeeNumber := some e, isUnfilled := false } :: rest
    else r :: applyOne rest s e

/-- The shift-filling entry point, `fill_unfilled_shifts`
(optimizer.py lines 303-355): split the snapshot into filled and unfilled
rows, return it unchanged when no row is unfilled (lines 323-324) or when
the solver assigned nothing (lines 336-338), and otherwise write each
assignment into the first matching unfilled row. -/
def fill_unfilled_shifts (oracle : MilpProblem → SolverResult)
    (latestSnapshot : List SnapshotRow) (ps : List EmployeeProfile) :
    List SnapshotRow :=
  let filledShifts := latestSnapshot.filter (fun r => r.employeeNumber.isSome)
  let unfilledShifts := latestSnapshot.filter (fun r => r.employeeNumber.isNone)
  if unfilledShifts.isEmpty then latestSnapshot
  else
    let deduped := dedupByKey unfilledShifts
    let assignments := solve_assignment oracle (deduped.map toUnfilled) ps
      (filledShifts.map toFilled)
    if assignments.isEmpty then latestSnapshot
    else assignments.foldl (fun rows p => applyOne rows p.1 p.2) latestSnapshot

/-! ### Concrete fixtures used by the witness theorems -/

/-- A one-row historical data set: employee 7 worked shift 100 on day 3. -/
def hist4 : List RawShift :=
  [⟨100, 3, 4, some 7, 21600, 50400, none, some 8, none, none, none⟩]

/-- The single profile the builder produces from `hist4`. -/
def profile4 : EmployeeProfile :=
  (compute_compatibility hist4).get ⟨0, by decide⟩

/-- A concrete 8-hour unfilled shift (ScheduleDetailID 100, day 3). -/
def oneShift : UnfilledShift := ⟨100, 3, 4, 21600, 50400, 8⟩

/-- A concrete 0.1-hour unfilled shift (ScheduleDetailID 100, day 6). -/
def smallShift : UnfilledShift := ⟨100, 6, 4, 21600, 21960, mkRat 1 10⟩

/-- A concrete profile for employee 7 with no observed categories. -/
def profile7 : EmployeeProfile := ⟨7, 1, [], [], [], [], []⟩

/-- A concrete profile for employee 9 with no observed categories. -/
def profile9 : EmployeeProfile := ⟨9, 5, [], [], [], [], []⟩

/-- An oracle reporting the optimal status 1 with every variable set to 1. -/
def optimalOracle : MilpProblem → SolverResult := fun _ => ⟨1, fun _ _ => some 1⟩

/-- An oracle reporting the PuLP status 0 ("Not Solved") while leaving every
variable value at 1. -/
def notSolvedOracle : MilpProblem → SolverResult := fun _ => ⟨0, fun _ _ => some 1⟩

/-- An oracle reporting the optimal status 1 with every variable solved
to 0 (the always-feasible empty assignment). -/
def zeroOracle : MilpProblem → SolverResult := fun _ => ⟨1, fun _ _ => some 0⟩

/-- Filled shifts putting employee 9 at exactly 5 distinct days (6 hours
each). -/
def fiveDayFilled : List FilledShift :=
  [⟨some 9, 1, some 6⟩, ⟨some 9, 2, some 6⟩, ⟨some 9, 3, some 6⟩,
    ⟨some 9, 4, some 6⟩, ⟨some 9, 5, some 6⟩]

/-- A concrete profile for employee 7 with one observed category per
dimension. -/
def richProfile : EmployeeProfile :=
  ⟨7, 1, [(3, 1)], [("morning", 1)], [("medium", 1)], [(4, 1)],
    [("morning_medium", 1)]⟩

/-! ### Helper lemmas -/

theorem alookup_mem {α β : Type} [DecidableEq α] {l : List (α × β)} {a : α}
    {v : β} (h : alookup l a = some v) : (a, v) ∈ l := by
  induction l with
  | nil => simp [alookup] at h
  | cons p l ih =>
    rcases p with ⟨x, y⟩
    by_cases hp : x = a
    · simp only [alookup, if_pos hp] at h
      injection h with h
      subst hp
      subst h
      exact List.mem_cons_self _ _
    · simp only [alookup, if_neg hp] at h
      exact List.mem_cons_of_mem _ (ih h)

theorem alookup_append {α β : Type} [DecidableEq α] (l₁ l₂ : List (α × β))
    (a : α) :
    alookup (l₁ ++ l₂) a = (alookup l₁ a).orElse (fun _ => alookup l₂ a) := by
  induction l₁ with
  | nil => simp [alookup, Option.orElse]
  | cons p l ih =>
    by_cases hp : p.1 = a
    · simp [alookup, if_pos hp, Option.orElse]
    · simp only [List.cons_append, alookup, if_neg hp]
      exact ih

theorem alookup_eq_none_iff {α β : Type} [DecidableEq α] {l : List (α × β)}
    {a : α} : alookup l a = none ↔ a ∉ l.map Prod.fst := by
  induction l with
  | nil => simp [alookup]
  | cons p l ih =>
    by_cases hp : p.1 = a
    · simp [alookup, if_pos hp, hp]
    · simp only [alookup, if_neg hp, List.map_cons, List.mem_cons, ih]
      constructor
      · intro h hc
        rcases hc with hc | hc
        · exact hp hc.symm
        · exact h hc
      · intro h hc
        exact h (Or.inr hc)

theorem hasDailyViolation_iff (fs : List FilledShift) (e : ℤ) :
    hasDailyViolation fs e = true ↔ ∃ d, 1 < empDayShifts fs e d := by
  unfold hasDailyViolation
  rw [List.any_eq_true]
  constructor
  · rintro ⟨s, _, hp⟩
    simp only [decide_eq_true_eq] at hp
    exact ⟨s.dayNum, hp.2⟩
  · rintro ⟨d, hd⟩
    have hpos : 0 <
        (fs.filter (fun s => s.employeeNumber = some e ∧ s.dayNum = d)).length := by
      unfold empDayShifts at hd
      omega
    rw [List.length_pos] at hpos
    obtain ⟨s, hs⟩ := List.exists_mem_of_ne_nil _ hpos
    have hmf := List.mem_filter.mp hs
    have hprop := of_decide_eq_true hmf.2
    refine ⟨s, hmf.1, ?_⟩
    simp only [decide_eq_true_eq]
    exact ⟨hprop.1, by rw [hprop.2]; exact hd⟩

theorem isExcluded_iff (fs : List FilledShift) (e : ℤ) :
    isExcluded fs e = true ↔
      40 ≤ empWeekHours fs e ∨ 5 ≤ (empWeekDays fs e).card ∨
        ∃ d, 1 < empDayShifts fs e d := by
  unfold isExcluded
  by_cases h1 : 40 ≤ empWeekHours fs e
  · simp [h1]
  · by_cases h2 : 5 ≤ (empWeekDays fs e).card
    · simp [h1, h2]
    · simp [h1, h2, hasDailyViolation_iff]

theorem not_excluded_daily (fs : List FilledShift) (e : ℤ)
    (h : isExcluded fs e = false) (d : ℤ) : empDayShifts fs e d ≤ 1 := by
  by_contra hc
  have : isExcluded fs e = true :=
    (isExcluded_iff fs e).mpr (Or.inr (Or.inr ⟨d, by omega⟩))
  rw [h] at this
  exact Bool.false_ne_true this

theorem mem_validEmployees {ps : List EmployeeProfile} {fs : List FilledShift}
    {e : ℤ} (h : e ∈ validEmployeesOf ps fs) :
    e ∈ employeesOf ps ∧ isExcluded fs e = false := by
  have hmf := List.mem_filter.mp h
  refine ⟨hmf.1, ?_⟩
  have := of_decide_eq_true hmf.2
  simpa using this

theorem mem_assignEmployee {val : ℤ → ShiftId → Option ℚ} {e : ℤ}
    {S : List ShiftId} {p : ShiftId × ℤ} :
    ∀ (acc : List (ShiftId × ℤ)), p ∈ assignEmployee val acc e S →
      p ∈ acc ∨ (p.2 = e ∧ p.1 ∈ S ∧ isAssigned val e p.1 = true) := by
  induction S with
  | nil => intro acc hp; exact Or.inl hp
  | cons s S ih =>
    intro acc hp
    have hp' := ih (assignStep val e acc s) hp
    rcases hp' with hp' | hp'
    · unfold assignStep at hp'
      by_cases ha : isAssigned val e s
      · rw [if_pos ha] at hp'
        by_cases hl : alookup acc s = none
        · rw [if_pos hl] at hp'
          rcases List.mem_append.mp hp' with hp'' | hp''
          · exact Or.inl hp''
          · right
            have : p = (s, e) := by simpa using hp''
            subst this
            exact ⟨rfl, List.mem_cons_self _ _, ha⟩
        · rw [if_neg hl] at hp'
          exact Or.inl hp'
      · rw [if_neg ha] at hp'
        exact Or.inl hp'
    · exact Or.inr ⟨hp'.1, List.mem_cons_of_mem _ hp'.2.1, hp'.2.2⟩

theorem mem_extractAssignments_aux {val : ℤ → ShiftId → Option ℚ}
    {S : List ShiftId} {p : ShiftId × ℤ} :
    ∀ (V : List ℤ) (acc : List (ShiftId × ℤ)),
      p ∈ V.foldl (fun acc e => assignEmployee val acc e S) acc →
      p ∈ acc ∨ (p.2 ∈ V ∧ p.1 ∈ S ∧ isAssigned val p.2 p.1 = true) := by
  intro V
  induction V with
  | nil => intro acc hp; exact Or.inl hp
  | cons e V ih =>
    intro acc hp
    rcases ih (assignEmployee val acc e S) hp with hp' | hp'
    · rcases mem_assignEmployee _ hp' with hp'' | hp''
      · exact Or.inl hp''
      · right
        refine ⟨?_, hp''.2.1, ?_⟩
        · rw [hp''.1]; exact List.mem_cons_self _ _
        · rw [hp''.1]; exact hp''.2.2
    · exact Or.inr ⟨List.mem_cons_of_mem _ hp'.1, hp'.2⟩

theorem mem_extractAssignments {val : ℤ → ShiftId → Option ℚ} {V : List ℤ}
    {S : List ShiftId} {p : ShiftId × ℤ} (hp : p ∈ extractAssignments val V S) :
    p.2 ∈ V ∧ p.1 ∈ S ∧ isAssigned val p.2 p.1 = true := by
  rcases mem_extractAssignments_aux V [] hp with h | h
  · simp at h
  · exact h

/-! ### C7: the feature extractor is idempotent -/

/-- C7.  Running the feature extractor a second time on an already augmented
record reproduces the record exactly (in particular all derived columns),
and a pre-existing `ShiftDurationHours` value is never overwritten. -/
theorem extract_shift_features_idempotent (r : RawShift) :
    extract_shift_features (extract_shift_features r) = extract_shift_features r ∧
    (∀ q : ℚ, r.durationHours = some q →
      (extract_shift_features r).durationHours = some q) := by
  constructor
  · rfl
  · intro q hq
    simp [extract_shift_features, hq]

/-- Witness for C7 at a concrete record with a pre-existing duration
column. -/
theorem extract_shift_features_idempotent_witness :
    extract_shift_features (extract_shift_features
        (RawShift.mk 100 3 4 (some 7) 21600 50400 none (some 8) none none none)) =
      extract_shift_features
        (RawShift.mk 100 3 4 (some 7) 21600 50400 none (some 8) none none none) ∧
    (extract_shift_features
        (RawShift.mk 100 3 4 (some 7) 21600 50400 none (some 8) none none none)).durationHours
      = some 8 :=
  ⟨(extract_shift_features_idempotent _).1,
    (extract_shift_features_idempotent _).2 8 rfl⟩

/-! ### C8: a missing duration column is tolerated with a default -/

/-- C8 counterexample.  A filled shift whose `ShiftDurationHours` field is
absent does not abort the accumulator or the validator: the optimizer's
hour accumulator counts it as the substituted default 8.0 and the validator
completes normally, reporting the data as valid. -/
theorem missing_duration_tolerated_cex :
    empWeekHours [FilledShift.mk (some 5) 1 none] 5 = 8 ∧
    (validate_constraints [FilledShift.mk (some 5) 1 none]).valid = true := by
  constructor
  · simp [empWeekHours, filledDuration]
  · norm_num [validate_constraints, weeklyHoursViolations, workDaysViolations,
      dailyShiftsViolations, observedEmps, observedEmpDays, empWeekHours,
      empWeekDays, empDayShifts, filledDuration]

/-- C8 as amended.  A shift record missing most required columns (for
example `EmployeeNumber` or `DayNum`, which are read unconditionally) fails
fatally, but a filled shift missing its duration-hours field is silently
tolerated: both the optimizer's accumulator and the validator substitute
the default value 8.0 for it instead of aborting. -/
theorem missing_duration_defaulted (s : FilledShift)
    (h : s.shiftDurationHours = none) : filledDuration s = 8 := by
  simp [filledDuration, h]

/-- Witness for the amended C8 at a concrete durationless record. -/
theorem missing_duration_defaulted_witness :
    filledDuration (FilledShift.mk (some 5) 1 none) = 8 :=
  missing_duration_defaulted _ rfl

/-! ### C9: an empty unfilled set short-circuits the fill step -/

/-- C9.  When the snapshot contains no unfilled shift the fill step returns
the snapshot unchanged, for every solver oracle — in particular the solver
and its decision-variable construction are never consulted. -/
theorem fill_unfilled_shifts_empty_input (oracle : MilpProblem → SolverResult)
    (snapshot : List SnapshotRow) (ps : List EmployeeProfile)
    (h : (snapshot.filter (fun r => r.employeeNumber.isNone)).isEmpty = true) :
    fill_unfilled_shifts oracle snapshot ps = snapshot := by
  simp only [fill_unfilled_shifts, h, if_pos]

/-- Witness for C9 on a concrete snapshot whose single row is filled. -/
theorem fill_unfilled_shifts_empty_input_witness :
    fill_unfilled_shifts (fun _ => SolverResult.mk 1 (fun _ _ => some 1))
      [SnapshotRow.mk 100 3 4 21600 50400 8 (some 7) false] [] =
      [SnapshotRow.mk 100 3 4 21600 50400 8 (some 7) false] :=
  fill_unfilled_shifts_empty_input _ _ _ rfl

/-! ### C10: a fully excluded pool short-circuits the solver -/

/-- C10.  If every profiled employee is pre-excluded, `solve_assignment`
returns the empty mapping for every solver oracle — the optimization
problem and its decision variables are never constructed — and no error is
raised (the function is total). -/
theorem solve_assignment_all_excluded_empty (oracle : MilpProblem → SolverResult)
    (us : List UnfilledShift) (ps : List EmployeeProfile) (fs : List FilledShift)
    (h : ∀ e ∈ employeesOf ps, isExcluded fs e = true) :
    solve_assignment oracle us ps fs = [] := by
  have hnil : validEmployeesOf ps fs = [] := by
    rw [validEmployeesOf, List.filter_eq_nil_iff]
    intro e he
    simp [h e he]
  simp [solve_assignment, hnil]

/-- Witness for C10: a single profiled employee already holding a 40-hour
filled shift. -/
theorem solve_assignment_all_excluded_empty_witness :
    solve_assignment optimalOracle [oneShift] [profile9]
      [FilledShift.mk (some 9) 1 (some 40)] = [] := by
  refine solve_assignment_all_excluded_empty _ _ _ _ ?_
  intro e he
  simp only [employeesOf, profile9, List.map_cons, List.map_nil,
    List.dedup_cons_of_not_mem, List.not_mem_nil, not_false_iff,
    List.dedup_nil, List.mem_singleton] at he
  subst he
  rw [isExcluded_iff]
  left
  simp [empWeekHours, filledDuration]

/-! ### C3: pre-excluded employees never receive a shift -/

/-- C3.  Every employee whose accumulated state from the filled shifts is
already at or over a limit (hours ≥ 40, distinct days ≥ 5, or some day with
more than one shift) is removed from the assignable pool before
optimization and therefore never appears as a value of the output mapping,
whatever the solver oracle reports and whatever the unfilled shifts (in
particular also for arbitrarily small positive durations). -/
theorem preexcluded_employee_receives_nothing (oracle : MilpProblem → SolverResult)
    (us : List UnfilledShift) (ps : List EmployeeProfile) (fs : List FilledShift)
    (e : ℤ)
    (he : 40 ≤ empWeekHours fs e ∨ 5 ≤ (empWeekDays fs e).card ∨
      ∃ d, 1 < empDayShifts fs e d) :
    e ∉ (solve_assignment oracle us ps fs).map Prod.snd := by
  intro hmem
  simp only [List.mem_map] at hmem
  obtain ⟨p, hp, hpe⟩ := hmem
  simp only [solve_assignment] at hp
  by_cases h0 : (validEmployeesOf ps fs).isEmpty
  · rw [if_pos h0] at hp
    simp at hp
  · rw [if_neg h0] at hp
    by_cases h1 : (oracle (mkProblem us ps fs)).status = -1
    · rw [if_pos h1] at hp
      simp at hp
    · rw [if_neg h1] at hp
      have hV := (mem_extractAssignments hp).1
      rw [hpe] at hV
      have hnx := (mem_validEmployees hV).2
      have hx := (isExcluded_iff fs e).mpr he
      rw [hnx] at hx
      exact Bool.false_ne_true hx

/-- Witness for C3: an employee already at exactly 5 distinct days is never
assigned a pending 0.1-hour shift. -/
theorem preexcluded_employee_receives_nothing_witness :
    9 ∉ (solve_assignment optimalOracle [smallShift] [profile9]
      fiveDayFilled).map Prod.snd := by
  refine preexcluded_employee_receives_nothing _ _ _ _ 9 (Or.inr (Or.inl ?_))
  decide

/-! ### C2: resolution of solver statuses -/

/-- C2 counterexample.  A solver oracle that terminates with the
non-optimal, non-infeasible status 0 (PuLP "Not Solved") while leaving a
variable value above the threshold does not yield the empty mapping: the
code merely logs a warning and proceeds to extraction, so the mapping below
is nonempty, contradicting the claim that every non-optimal terminal status
yields the empty mapping. -/
theorem nonoptimal_status_not_empty_cex :
    (∀ P : MilpProblem, (notSolvedOracle P).status = 0) ∧
    solve_assignment notSolvedOracle [oneShift] [profile7] [] = [((100, 3), 7)] := by
  constructor
  · intro P
    rfl
  · decide

/-- C2 as amended.  With a nonempty assignable pool, `solve_assignment`
resolves the solver outcome as follows and never raises: an infeasible
status (-1) yields the empty mapping; any other status, optimal or not (a
non-optimal one after a logged warning), proceeds to extract whatever
variable values the solver left, which yields the empty mapping only when
no variable value exceeds 0.5. -/
theorem solve_assignment_status_resolution (oracle : MilpProblem → SolverResult)
    (us : List UnfilledShift) (ps : List EmployeeProfile) (fs : List FilledShift)
    (hV : (validEmployeesOf ps fs).isEmpty = false) :
    ((oracle (mkProblem us ps fs)).status = -1 →
      solve_assignment oracle us ps fs = []) ∧
    ((oracle (mkProblem us ps fs)).status ≠ -1 →
      solve_assignment oracle us ps fs =
        extractAssignments (oracle (mkProblem us ps fs)).xval
          (validEmployeesOf ps fs) (shiftIdsOf us)) := by
  constructor
  · intro h
    simp [solve_assignment, hV, h]
  · intro h
    simp [solve_assignment, hV, h]

/-- Witness for the amended C2 at a concrete instance with optimal
status. -/
theorem solve_assignment_status_resolution_witness :
    (((optimalOracle (mkProblem [oneShift] [profile7] [])).status = -1 →
      solve_assignment optimalOracle [oneShift] [profile7] [] = [])) ∧
    (((optimalOracle (mkProblem [oneShift] [profile7] [])).status ≠ -1 →
      solve_assignment optimalOracle [oneShift] [profile7] [] =
        extractAssignments (optimalOracle (mkProblem [oneShift] [profile7] [])).xval
          (validEmployeesOf [profile7] []) (shiftIdsOf [oneShift]))) :=
  solve_assignment_status_resolution optimalOracle [oneShift] [profile7] []
    (by decide)

/-! ### C5: the compatibility scorer -/

theorem weight_term_eq {α : Type} [DecidableEq α] (l : List (α × ℚ)) (a : α)
    (w : ℚ) :
    (match alookup l a with | some v => w * v | none => 0)
      = w * (alookup l a).getD 0 := by
  cases alookup l a <;> simp

theorem getD_bounds {α : Type} [DecidableEq α] {l : List (α × ℚ)}
    (h : ∀ q ∈ l, 0 ≤ q.2 ∧ q.2 ≤ 1) (a : α) :
    0 ≤ (alookup l a).getD 0 ∧ (alookup l a).getD 0 ≤ 1 := by
  cases hl : alookup l a with
  | none => norm_num
  | some v =>
    have := h (a, v) (alookup_mem hl)
    simpa using this

/-- C5.  For a well-formed profile the compatibility score equals the
weighted sum of the profile's probabilities looked up at the shift's five
attribute values with weights 0.30 / 0.25 / 0.15 / 0.20 / 0.10, where an
attribute whose column is absent from the profile contributes exactly 0;
and the score lies in [0,1]. -/
theorem compatibility_score_spec (p : EmployeeProfile) (shiftDay : ℤ)
    (tc dc : String) (shiftJob : ℤ) (st : String)
    (hwf : ProfileWellFormed p) :
    get_compatibility_score p shiftDay tc dc shiftJob st =
      0.3 * (alookup p.dayProbs shiftDay).getD 0
        + 0.25 * (alookup p.timeProbs tc).getD 0
        + 0.15 * (alookup p.durationProbs dc).getD 0
        + 0.2 * (alookup p.jobProbs shiftJob).getD 0
        + 0.1 * (alookup p.shiftTypeProbs st).getD 0 ∧
    0 ≤ get_compatibility_score p shiftDay tc dc shiftJob st ∧
    get_compatibility_score p shiftDay tc dc shiftJob st ≤ 1 := by
  obtain ⟨h1, h2, h3, h4, h5⟩ := hwf
  have heq : get_compatibility_score p shiftDay tc dc shiftJob st =
      0.3 * (alookup p.dayProbs shiftDay).getD 0
        + 0.25 * (alookup p.timeProbs tc).getD 0
        + 0.15 * (alookup p.durationProbs dc).getD 0
        + 0.2 * (alookup p.jobProbs shiftJob).getD 0
        + 0.1 * (alookup p.shiftTypeProbs st).getD 0 := by
    simp only [get_compatibility_score]
    rw [weight_term_eq, weight_term_eq, weight_term_eq, weight_term_eq,
      weight_term_eq]
  have b1 := getD_bounds h1 shiftDay
  have b2 := getD_bounds h2 tc
  have b3 := getD_bounds h3 dc
  have b4 := getD_bounds h4 shiftJob
  have b5 := getD_bounds h5 st
  refine ⟨heq, ?_, ?_⟩
  · rw [heq]
    have m1 : (0 : ℚ) ≤ 0.3 * (alookup p.dayProbs shiftDay).getD 0 :=
      mul_nonneg (by norm_num) b1.1
    have m2 : (0 : ℚ) ≤ 0.25 * (alookup p.timeProbs tc).getD 0 :=
      mul_nonneg (by norm_num) b2.1
    have m3 : (0 : ℚ) ≤ 0.15 * (alookup p.durationProbs dc).getD 0 :=
      mul_nonneg (by norm_num) b3.1
    have m4 : (0 : ℚ) ≤ 0.2 * (alookup p.jobProbs shiftJob).getD 0 :=
      mul_nonneg (by norm_num) b4.1
    have m5 : (0 : ℚ) ≤ 0.1 * (alookup p.shiftTypeProbs st).getD 0 :=
      mul_nonneg (by norm_num) b5.1
    linarith
  · rw [heq]
    have m1 : (0.3 : ℚ) * (alookup p.dayProbs shiftDay).getD 0 ≤ 0.3 :=
      mul_le_of_le_one_right (by norm_num) b1.2
    have m2 : (0.25 : ℚ) * (alookup p.timeProbs tc).getD 0 ≤ 0.25 :=
      mul_le_of_le_one_right (by norm_num) b2.2
    have m3 : (0.15 : ℚ) * (alookup p.durationProbs dc).getD 0 ≤ 0.15 :=
      mul_le_of_le_one_right (by norm_num) b3.2
    have m4 : (0.2 : ℚ) * (alookup p.jobProbs shiftJob).getD 0 ≤ 0.2 :=
      mul_le_of_le_one_right (by norm_num) b4.2
    have m5 : (0.1 : ℚ) * (alookup p.shiftTypeProbs st).getD 0 ≤ 0.1 :=
      mul_le_of_le_one_right (by norm_num) b5.2
    linarith

/-- Witness for C5 at a concrete well-formed profile and shift. -/
theorem compatibility_score_spec_witness :
    ProfileWellFormed richProfile ∧
    (get_compatibility_score richProfile 3 "morning" "medium" 4 "morning_medium" =
      0.3 * (alookup richProfile.dayProbs 3).getD 0
        + 0.25 * (alookup richProfile.timeProbs "morning").getD 0
        + 0.15 * (alookup richProfile.durationProbs "medium").getD 0
        + 0.2 * (alookup richProfile.jobProbs 4).getD 0
        + 0.1 * (alookup richProfile.shiftTypeProbs "morning_medium").getD 0 ∧
    0 ≤ get_compatibility_score richProfile 3 "morning" "medium" 4 "morning_medium" ∧
    get_compatibility_score richProfile 3 "morning" "medium" 4 "morning_medium" ≤ 1) :=
  ⟨by decide,
    compatibility_score_spec richProfile 3 "morning" "medium" 4 "morning_medium"
      (by decide)⟩

/-! ### C6: the constraint validator -/

theorem observedEmps_of_row {fs : List FilledShift} {s : FilledShift} {e : ℤ}
    (hs : s ∈ fs) (he : s.employeeNumber = some e) : e ∈ observedEmps fs := by
  unfold observedEmps
  rw [List.mem_dedup, List.mem_filterMap]
  exact ⟨s, hs, he⟩

theorem exists_row_of_hours {fs : List FilledShift} {e : ℤ}
    (h : empWeekHours fs e ≠ 0) : ∃ s ∈ fs, s.employeeNumber = some e := by
  by_contra hc
  push_neg at hc
  have hnil : fs.filter (fun s => s.employeeNumber = some e) = [] :=
    List.filter_eq_nil_iff.mpr (fun s hs => by simpa using hc s hs)
  rw [empWeekHours, hnil] at h
  simp at h

theorem exists_row_of_days {fs : List FilledShift} {e : ℤ}
    (h : (empWeekDays fs e).card ≠ 0) : ∃ s ∈ fs, s.employeeNumber = some e := by
  by_contra hc
  push_neg at hc
  have hnil : fs.filter (fun s => s.employeeNumber = some e) = [] :=
    List.filter_eq_nil_iff.mpr (fun s hs => by simpa using hc s hs)
  rw [empWeekDays, hnil] at h
  simp at h

theorem exists_row_of_dayCount {fs : List FilledShift} {e d : ℤ}
    (h : empDayShifts fs e d ≠ 0) :
    ∃ s ∈ fs, s.employeeNumber = some e ∧ s.dayNum = d := by
  by_contra hc
  push_neg at hc
  have hnil : fs.filter (fun s => s.employeeNumber = some e ∧ s.dayNum = d) = [] := by
    refine List.filter_eq_nil_iff.mpr (fun s hs => ?_)
    simp only [decide_eq_true_eq]
    rintro ⟨h1, h2⟩
    exact (hc s hs h1) h2
  rw [empDayShifts, hnil] at h
  simp at h

theorem mem_weeklyHoursViolations {fs : List FilledShift} {e : ℤ} {h : ℚ} :
    (e, h) ∈ weeklyHoursViolations fs ↔
      40 < empWeekHours fs e ∧ h = empWeekHours fs e ∧ e ∈ observedEmps fs := by
  unfold weeklyHoursViolations
  rw [List.mem_filterMap]
  constructor
  · rintro ⟨a, ha, hif⟩
    by_cases hc : 40 < empWeekHours fs a
    · rw [if_pos hc] at hif
      injection hif with hif
      injection hif with hae hh
      subst hae
      subst hh
      exact ⟨hc, rfl, ha⟩
    · rw [if_neg hc] at hif
      exact absurd hif (by simp)
  · rintro ⟨hgt, rfl, hmem⟩
    exact ⟨e, hmem, by rw [if_pos hgt]⟩

theorem mem_workDaysViolations {fs : List FilledShift} {e : ℤ} {n : ℕ} :
    (e, n) ∈ workDaysViolations fs ↔
      5 < (empWeekDays fs e).card ∧ n = (empWeekDays fs e).card ∧
        e ∈ observedEmps fs := by
  unfold workDaysViolations
  rw [List.mem_filterMap]
  constructor
  · rintro ⟨a, ha, hif⟩
    by_cases hc : 5 < (empWeekDays fs a).card
    · rw [if_pos hc] at hif
      injection hif with hif
      injection hif with hae hn
      subst hae
      subst hn
      exact ⟨hc, rfl, ha⟩
    · rw [if_neg hc] at hif
      exact absurd hif (by simp)
  · rintro ⟨hgt, rfl, hmem⟩
    exact ⟨e, hmem, by rw [if_pos hgt]⟩

theorem observedEmpDays_of_row {fs : List FilledShift} {s : FilledShift}
    {e d : ℤ} (hs : s ∈ fs) (he : s.employeeNumber = some e)
    (hd : s.dayNum = d) : (e, d) ∈ observedEmpDays fs := by
  unfold observedEmpDays
  rw [List.mem_dedup, List.mem_filterMap]
  exact ⟨s, hs, by rw [he, hd]; rfl⟩

theorem mem_dailyShiftsViolations {fs : List FilledShift} {e d : ℤ} {n : ℕ} :
    ((e, d), n) ∈ dailyShiftsViolations fs ↔
      1 < empDayShifts fs e d ∧ n = empDayShifts fs e d ∧
        (e, d) ∈ observedEmpDays fs := by
  unfold dailyShiftsViolations
  rw [List.mem_filterMap]
  constructor
  · rintro ⟨a, ha, hif⟩
    by_cases hc : 1 < empDayShifts fs a.1 a.2
    · rw [if_pos hc] at hif
      injection hif with hif
      injection hif with hae hn
      subst hae
      subst hn
      exact ⟨hc, rfl, ha⟩
    · rw [if_neg hc] at hif
      exact absurd hif (by simp)
  · rintro ⟨hgt, rfl, hmem⟩
    exact ⟨(e, d), hmem, by rw [if_pos hgt]⟩

theorem filter_isSome_comm (fs : List FilledShift) (p : FilledShift → Bool)
    (hp : ∀ s, p s = true → s.employeeNumber.isSome = true) :
    (fs.filter (fun s => s.employeeNumber.isSome)).filter p = fs.filter p := by
  rw [List.filter_filter]
  apply List.filter_congr
  intro s _
  cases hq : p s
  · simp
  · simp [hp s hq]

theorem empWeekHours_filter_isSome (fs : List FilledShift) (e : ℤ) :
    empWeekHours (fs.filter (fun s => s.employeeNumber.isSome)) e
      = empWeekHours fs e := by
  unfold empWeekHours
  rw [filter_isSome_comm]
  intro s hs
  have := of_decide_eq_true hs
  simp [this]

theorem empWeekDays_filter_isSome (fs : List FilledShift) (e : ℤ) :
    empWeekDays (fs.filter (fun s => s.employeeNumber.isSome)) e
      = empWeekDays fs e := by
  unfold empWeekDays
  rw [filter_isSome_comm]
  intro s hs
  have := of_decide_eq_true hs
  simp [this]

theorem empDayShifts_filter_isSome (fs : List FilledShift) (e d : ℤ) :
    empDayShifts (fs.filter (fun s => s.employeeNumber.isSome)) e d
      = empDayShifts fs e d := by
  unfold empDayShifts
  rw [filter_isSome_comm]
  intro s hs
  have := of_decide_eq_true hs
  simp [this.1]

/-- C6.  The validator reports a weekly-hours, work-days, or daily-shifts
violation for an employee (and day) exactly when that employee's summed
hours strictly exceed 40, their distinct-day count strictly exceeds 5, or
that day's shift count strictly exceeds 1 — so exactly 40 hours, exactly 5
days, or exactly 1 shift per day yields no violation — and the valid flag
is true exactly when no violation is reported.  The Lean embedding is pure,
matching the source, which copies the input before restricting it and never
writes to it. -/
theorem validate_constraints_spec (snapshot : List FilledShift) :
    ((validate_constraints snapshot).valid = true ↔
      (validate_constraints snapshot).weeklyHours = [] ∧
      (validate_constraints snapshot).workDays = [] ∧
      (validate_constraints snapshot).dailyShifts = []) ∧
    (∀ e : ℤ, (∃ h, (e, h) ∈ (validate_constraints snapshot).weeklyHours) ↔
      40 < empWeekHours snapshot e) ∧
    (∀ e : ℤ, (∃ n, (e, n) ∈ (validate_constraints snapshot).workDays) ↔
      5 < (empWeekDays snapshot e).card) ∧
    (∀ e d : ℤ, (∃ n, ((e, d), n) ∈ (validate_constraints snapshot).dailyShifts) ↔
      1 < empDayShifts snapshot e d) := by
  by_cases h0 : (snapshot.filter (fun s => s.employeeNumber.isSome)).isEmpty = true
  · have hv : validate_constraints snapshot =
        { valid := true, weeklyHours := [], workDays := [], dailyShifts := []
          totalViolations := 0 } := by
      simp only [validate_constraints]
      rw [if_pos h0]
    have hnil : snapshot.filter (fun s => s.employeeNumber.isSome) = [] := by
      cases hc : snapshot.filter (fun s => s.employeeNumber.isSome)
      · rfl
      · rw [hc] at h0
        simp [List.isEmpty] at h0
    have hnone : ∀ s ∈ snapshot, s.employeeNumber = none := by
      intro s hs
      have := List.filter_eq_nil_iff.mp hnil s hs
      cases h : s.employeeNumber
      · rfl
      · rw [h] at this
        simp at this
    have hWH : ∀ e, empWeekHours snapshot e = 0 := by
      intro e
      rw [empWeekHours]
      have hn : snapshot.filter (fun s => s.employeeNumber = some e) = [] := by
        refine List.filter_eq_nil_iff.mpr (fun s hs => ?_)
        simp [hnone s hs]
      rw [hn]
      simp
    have hWD : ∀ e, empWeekDays snapshot e = ∅ := by
      intro e
      rw [empWeekDays]
      have hn : snapshot.filter (fun s => s.employeeNumber = some e) = [] := by
        refine List.filter_eq_nil_iff.mpr (fun s hs => ?_)
        simp [hnone s hs]
      rw [hn]
      rfl
    have hDC : ∀ e d, empDayShifts snapshot e d = 0 := by
      intro e d
      rw [empDayShifts]
      have hn : snapshot.filter
          (fun s => s.employeeNumber = some e ∧ s.dayNum = d) = [] := by
        refine List.filter_eq_nil_iff.mpr (fun s hs => ?_)
        simp [hnone s hs]
      rw [hn]
      rfl
    rw [hv]
    refine ⟨by simp, ?_, ?_, ?_⟩
    · intro e
      rw [hWH e]
      norm_num
    · intro e
      rw [hWD e]
      norm_num
    · intro e d
      rw [hDC e d]
      norm_num
  · have hW : (validate_constraints snapshot).weeklyHours =
        weeklyHoursViolations (snapshot.filter (fun s => s.employeeNumber.isSome)) := by
      simp only [validate_constraints]
      rw [if_neg h0]
    have hD : (validate_constraints snapshot).workDays =
        workDaysViolations (snapshot.filter (fun s => s.employeeNumber.isSome)) := by
      simp only [validate_constraints]
      rw [if_neg h0]
    have hC : (validate_constraints snapshot).dailyShifts =
        dailyShiftsViolations (snapshot.filter (fun s => s.employeeNumber.isSome)) := by
      simp only [validate_constraints]
      rw [if_neg h0]
    have hval : (validate_constraints snapshot).valid =
        decide ((weeklyHoursViolations (snapshot.filter (fun s => s.employeeNumber.isSome))).length
          + (workDaysViolations (snapshot.filter (fun s => s.employeeNumber.isSome))).length
          + (dailyShiftsViolations (snapshot.filter (fun s => s.employeeNumber.isSome))).length = 0) := by
      simp only [validate_constraints]
      rw [if_neg h0]
    refine ⟨?_, ?_, ?_, ?_⟩
    · rw [hval, hW, hD, hC]
      simp [Nat.add_eq_zero, List.length_eq_zero]
      tauto
    · intro e
      rw [hW]
      constructor
      · rintro ⟨h, hmem⟩
        have := (mem_weeklyHoursViolations.mp hmem).1
        rwa [empWeekHours_filter_isSome] at this
      · intro h40
        have h40f : 40 < empWeekHours
            (snapshot.filter (fun s => s.employeeNumber.isSome)) e := by
          rwa [empWeekHours_filter_isSome]
        have hne : empWeekHours
            (snapshot.filter (fun s => s.employeeNumber.isSome)) e ≠ 0 := by
          intro hz
          rw [hz] at h40f
          norm_num at h40f
        obtain ⟨s, hs, hse⟩ := exists_row_of_hours hne
        exact ⟨_, mem_weeklyHoursViolations.mpr
          ⟨h40f, rfl, observedEmps_of_row hs hse⟩⟩
    · intro e
      rw [hD]
      constructor
      · rintro ⟨n, hmem⟩
        have := (mem_workDaysViolations.mp hmem).1
        rwa [empWeekDays_filter_isSome] at this
      · intro h5
        have h5f : 5 < (empWeekDays
            (snapshot.filter (fun s => s.employeeNumber.isSome)) e).card := by
          rwa [empWeekDays_filter_isSome]
        have hne : (empWeekDays
            (snapshot.filter (fun s => s.employeeNumber.isSome)) e).card ≠ 0 := by
          omega
        obtain ⟨s, hs, hse⟩ := exists_row_of_days hne
        exact ⟨_, mem_workDaysViolations.mpr
          ⟨h5f, rfl, observedEmps_of_row hs hse⟩⟩
    · intro e d
      rw [hC]
      constructor
      · rintro ⟨n, hmem⟩
        have := (mem_dailyShiftsViolations.mp hmem).1
        rwa [empDayShifts_filter_isSome] at this
      · intro h1
        have h1f : 1 < empDayShifts
            (snapshot.filter (fun s => s.employeeNumber.isSome)) e d := by
          rwa [empDayShifts_filter_isSome]
        have hne : empDayShifts
            (snapshot.filter (fun s => s.employeeNumber.isSome)) e d ≠ 0 := by
          omega
        obtain ⟨s, hs, hse, hsd⟩ := exists_row_of_dayCount hne
        exact ⟨_, mem_dailyShiftsViolations.mpr
          ⟨h1f, rfl, observedEmpDays_of_row hs hse hsd⟩⟩

/-! ### C4: profiles are probability distributions -/

theorem sum_map_add_nat {α : Type} (l : List α) (f g : α → ℕ) :
    (l.map (fun x => f x + g x)).sum = (l.map f).sum + (l.map g).sum := by
  induction l with
  | nil => simp
  | cons a l ih =>
    simp only [List.map_cons, List.sum_cons, ih]
    omega

theorem sum_map_div {α : Type} (l : List α) (f : α → ℚ) (c : ℚ) :
    (l.map (fun x => f x / c)).sum = (l.map f).sum / c := by
  induction l with
  | nil => simp
  | cons a l ih =>
    simp only [List.map_cons, List.sum_cons, ih]
    ring

theorem sum_map_natCast {α : Type} (l : List α) (f : α → ℕ) :
    (l.map (fun x => ((f x : ℕ) : ℚ))).sum = (((l.map f).sum : ℕ) : ℚ) := by
  induction l with
  | nil => simp
  | cons a l ih =>
    simp only [List.map_cons, List.sum_cons, ih]
    push_cast
    ring

theorem sum_ite_count {β : Type} [DecidableEq β] {U : List β} {b : β}
    (hU : U.Nodup) (hb : b ∈ U) :
    (U.map (fun u => if b = u then (1 : ℕ) else 0)).sum = 1 := by
  induction U with
  | nil => simp at hb
  | cons u U ih =>
    rcases List.mem_cons.mp hb with hbu | hbU
    · subst hbu
      simp only [List.map_cons, List.sum_cons, if_pos rfl]
      have hz : (U.map (fun x => if b = x then (1 : ℕ) else 0)).sum = 0 := by
        apply List.sum_eq_zero
        intro n hn
        rw [List.mem_map] at hn
        obtain ⟨y, hy, rfl⟩ := hn
        rw [if_neg]
        intro he
        exact (List.nodup_cons.mp hU).1 (he ▸ hy)
      rw [hz]
      simp
    · have hbu : ¬ b = u := fun he => (List.nodup_cons.mp hU).1 (he ▸ hbU)
      rw [List.map_cons, List.sum_cons, if_neg hbu,
        ih (List.nodup_cons.mp hU).2 hbU]

theorem count_sum_over_universe {α β : Type} [DecidableEq β] (L : List α)
    (f : α → β) (U : List β) (hU : U.Nodup) (hL : ∀ a ∈ L, f a ∈ U) :
    (U.map (fun u => (L.filter (fun a => f a = u)).length)).sum = L.length := by
  induction L with
  | nil => simp
  | cons a L ih =>
    have hL' : ∀ x ∈ L, f x ∈ U := fun x hx => hL x (List.mem_cons_of_mem _ hx)
    have hfa : f a ∈ U := hL a (List.mem_cons_self _ _)
    have hstep : (fun u => ((a :: L).filter (fun x => f x = u)).length)
        = fun u => (if f a = u then 1 else 0)
            + (L.filter (fun x => f x = u)).length := by
      funext u
      rw [List.filter_cons]
      by_cases hc : f a = u
      · rw [if_pos (decide_eq_true hc), List.length_cons, if_pos hc]
        omega
      · rw [if_neg (by simpa using hc), if_neg hc]
        omega
    rw [hstep, sum_map_add_nat, sum_ite_count hU hfa, ih hL', List.length_cons]
    omega

theorem dist_sum_one {α β : Type} [DecidableEq β] (L : List α) (f : α → β)
    (U : List β) (hU : U.Nodup) (hL : ∀ a ∈ L, f a ∈ U)
    (hne : L.length ≠ 0) :
    ((U.map (fun u =>
        (u, ((L.filter (fun a => f a = u)).length : ℚ) / (L.length : ℚ)))).map
      Prod.snd).sum = 1 := by
  rw [List.map_map]
  show (U.map (fun u =>
      ((L.filter (fun a => f a = u)).length : ℚ) / (L.length : ℚ))).sum = 1
  rw [sum_map_div, sum_map_natCast, count_sum_over_universe L f U hU hL]
  exact div_self (by exact_mod_cast hne)

theorem dist_sum_one_option {α β : Type} [DecidableEq β] (L : List α)
    (f : α → Option β) (U : List β) (hU : U.Nodup)
    (hL : ∀ a ∈ L, ∃ b ∈ U, f a = some b) (hne : L.length ≠ 0) :
    ((U.map (fun u =>
        (u, ((L.filter (fun a => f a = some u)).length : ℚ) / (L.length : ℚ)))).map
      Prod.snd).sum = 1 := by
  rw [List.map_map]
  show (U.map (fun u =>
      ((L.filter (fun a => f a = some u)).length : ℚ) / (L.length : ℚ))).sum = 1
  have hmm : (U.map (fun u =>
      ((L.filter (fun a => f a = some u)).length : ℚ) / (L.length : ℚ)))
      = (U.map some).map (fun v =>
        ((L.filter (fun a => f a = v)).length : ℚ) / (L.length : ℚ)) := by
    rw [List.map_map]
    rfl
  rw [hmm, sum_map_div, sum_map_natCast,
    count_sum_over_universe L f (U.map some)
      (hU.map (Option.some_injective β))
      (fun a ha => by
        obtain ⟨b, hb, hfb⟩ := hL a ha
        rw [hfb]
        exact List.mem_map_of_mem some hb)]
  exact div_self (by exact_mod_cast hne)

theorem dist_entries_bounded {α β : Type} [DecidableEq β] (L : List α)
    (p : β → α → Bool) (U : List β) (hne : L.length ≠ 0) (u : β) (q : ℚ)
    (hq : (u, q) ∈ U.map (fun u =>
      (u, ((L.filter (p u)).length : ℚ) / (L.length : ℚ)))) :
    0 ≤ q ∧ q ≤ 1 := by
  rw [List.mem_map] at hq
  obtain ⟨v, _, hv⟩ := hq
  injection hv with hv1 hv2
  subst hv2
  have hlen : ((L.filter (p v)).length : ℚ) ≤ (L.length : ℚ) := by
    exact_mod_cast List.length_filter_le _ L
  have hpos : (0 : ℚ) < (L.length : ℚ) := by
    exact_mod_cast Nat.pos_of_ne_zero hne
  constructor
  · exact div_nonneg (by positivity) (le_of_lt hpos)
  · rw [div_le_one hpos]
    exact hlen

theorem extract_keeps_employee (r : RawShift) :
    (extract_shift_features r).employeeNumber = r.employeeNumber := rfl

theorem extract_keeps_day (r : RawShift) :
    (extract_shift_features r).dayNum = r.dayNum := rfl

theorem extract_keeps_job (r : RawShift) :
    (extract_shift_features r).jobNumber = r.jobNumber := rfl

theorem extract_sets_timeCategory (r : RawShift) :
    (extract_shift_features r).timeCategory
      = some (timeCategoryOf (r.parsedStart.getD r.startSec)) := rfl

theorem extract_sets_durationCategory (r : RawShift) :
    (extract_shift_features r).durationCategory
      = some (durationCategoryOf
          (r.durationHours.getD (durationHoursOf r.startSec r.endSec))) := rfl

theorem extract_sets_shiftType (r : RawShift) :
    (extract_shift_features r).shiftType
      = some (timeCategoryOf (r.parsedStart.getD r.startSec) ++ "_"
          ++ durationCategoryOf
            (r.durationHours.getD (durationHoursOf r.startSec r.endSec))) := rfl

set_option maxHeartbeats 1000000 in
/-- C4.  Every profile the builder emits has all five probability
distributions over the globally observed category universes summing to
exactly 1 (hence certainly within 1e-9, embedding the float arithmetic as
exact rationals), every individual probability lies in [0,1]
(`ProfileWellFormed`), and the profiled employee has at least one filled
historical shift — equivalently, an employee with zero historical filled
shifts is absent from the output. -/
theorem profiles_are_distributions (historicalData : List RawShift)
    (p : EmployeeProfile) (hp : p ∈ compute_compatibility historicalData) :
    ((p.dayProbs.map Prod.snd).sum = 1 ∧
     (p.timeProbs.map Prod.snd).sum = 1 ∧
     (p.durationProbs.map Prod.snd).sum = 1 ∧
     (p.jobProbs.map Prod.snd).sum = 1 ∧
     (p.shiftTypeProbs.map Prod.snd).sum = 1) ∧
    ProfileWellFormed p ∧
    (∃ r ∈ historicalData, r.employeeNumber = some p.employeeNumber) := by
  simp only [compute_compatibility] at hp
  by_cases h0 : (historicalData.filter (fun r => r.employeeNumber.isSome)).isEmpty = true
  · rw [if_pos h0] at hp
    simp at hp
  · rw [if_neg h0] at hp
    rw [List.mem_map] at hp
    obtain ⟨e, he, rfl⟩ := hp
    set fs := (historicalData.filter (fun r => r.employeeNumber.isSome)).map
      extract_shift_features with hfs
    have hef := List.mem_filter.mp he
    have hne : ¬ (fs.filter (fun r => r.employeeNumber = some e)).length = 0 := by
      have := of_decide_eq_true hef.2
      simpa using this
    have hmemU := hef.1
    constructor
    · refine ⟨?_, ?_, ?_, ?_, ?_⟩
      · simp only [buildProfile]
        refine dist_sum_one _ (fun r => r.dayNum) _ (List.nodup_dedup _) ?_ hne
        intro a ha
        rw [List.mem_dedup]
        exact List.mem_map_of_mem _ (List.mem_of_mem_filter ha)
      · simp only [buildProfile]
        refine dist_sum_one_option _ (fun r => r.timeCategory) _
          (List.nodup_dedup _) ?_ hne
        intro a ha
        have hafs := List.mem_of_mem_filter ha
        rw [hfs, List.mem_map] at hafs
        obtain ⟨r0, hr0, hr0e⟩ := hafs
        refine ⟨timeCategoryOf (r0.parsedStart.getD r0.startSec), ?_, ?_⟩
        · rw [List.mem_dedup, List.mem_filterMap]
          refine ⟨a, List.mem_of_mem_filter ha, ?_⟩
          rw [← hr0e]
          exact extract_sets_timeCategory r0
        · rw [← hr0e]
          exact extract_sets_timeCategory r0
      · simp only [buildProfile]
        refine dist_sum_one_option _ (fun r => r.durationCategory) _
          (List.nodup_dedup _) ?_ hne
        intro a ha
        have hafs := List.mem_of_mem_filter ha
        rw [hfs, List.mem_map] at hafs
        obtain ⟨r0, hr0, hr0e⟩ := hafs
        refine ⟨durationCategoryOf
          (r0.durationHours.getD (durationHoursOf r0.startSec r0.endSec)), ?_, ?_⟩
        · rw [List.mem_dedup, List.mem_filterMap]
          refine ⟨a, List.mem_of_mem_filter ha, ?_⟩
          rw [← hr0e]
          exact extract_sets_durationCategory r0
        · rw [← hr0e]
          exact extract_sets_durationCategory r0
      · simp only [buildProfile]
        refine dist_sum_one _ (fun r => r.jobNumber) _ (List.nodup_dedup _) ?_ hne
        intro a ha
        rw [List.mem_dedup]
        exact List.mem_map_of_mem _ (List.mem_of_mem_filter ha)
      · simp only [buildProfile]
        refine dist_sum_one_option _ (fun r => r.shiftType) _
          (List.nodup_dedup _) ?_ hne
        intro a ha
        have hafs := List.mem_of_mem_filter ha
        rw [hfs, List.mem_map] at hafs
        obtain ⟨r0, hr0, hr0e⟩ := hafs
        refine ⟨timeCategoryOf (r0.parsedStart.getD r0.startSec) ++ "_"
          ++ durationCategoryOf
            (r0.durationHours.getD (durationHoursOf r0.startSec r0.endSec)), ?_, ?_⟩
        · rw [List.mem_dedup, List.mem_filterMap]
          refine ⟨a, List.mem_of_mem_filter ha, ?_⟩
          rw [← hr0e]
          exact extract_sets_shiftType r0
        · rw [← hr0e]
          exact extract_sets_shiftType r0
    constructor
    · refine ⟨?_, ?_, ?_, ?_, ?_⟩ <;>
        · intro q hq
          simp only [buildProfile] at hq
          exact dist_entries_bounded _ _ _ hne q.1 q.2 hq
    · rw [List.mem_dedup, List.mem_filterMap] at hmemU
      obtain ⟨r1, hr1, hr1e⟩ := hmemU
      rw [hfs, List.mem_map] at hr1
      obtain ⟨r0, hr0, hr0e⟩ := hr1
      refine ⟨r0, List.mem_of_mem_filter hr0, ?_⟩
      have hkeep : r0.employeeNumber = r1.employeeNumber := by
        rw [← hr0e]
        rfl
      rw [hkeep, hr1e]
      rfl

/-- Witness for C4 on the one-employee historical set `hist4`. -/
theorem profiles_are_distributions_witness :
    profile4 ∈ compute_compatibility hist4 ∧
    (((profile4.dayProbs.map Prod.snd).sum = 1 ∧
      (profile4.timeProbs.map Prod.snd).sum = 1 ∧
      (profile4.durationProbs.map Prod.snd).sum = 1 ∧
      (profile4.jobProbs.map Prod.snd).sum = 1 ∧
      (profile4.shiftTypeProbs.map Prod.snd).sum = 1) ∧
     ProfileWellFormed profile4 ∧
     (∃ r ∈ hist4, r.employeeNumber = some profile4.employeeNumber)) := by
  have hmem : profile4 ∈ compute_compatibility hist4 := List.get_mem _ _ _
  exact ⟨hmem, profiles_are_distributions hist4 profile4 hmem⟩

/-! ### C1: solver output respects all constraints -/

theorem mkRat_half : (mkRat 1 2 : ℚ) = 1 / 2 := by
  norm_num [Rat.mkRat_eq_div]

theorem isAssigned_some_iff {x : ℤ → ShiftId → ℚ} {e : ℤ} {s : ShiftId}
    (hb : x e s = 0 ∨ x e s = 1) :
    isAssigned (fun e s => some (x e s)) e s = true ↔ x e s = 1 := by
  show decide (mkRat 1 2 < x e s) = true ↔ x e s = 1
  rcases hb with h | h <;> rw [h] <;> rw [mkRat_half] <;> norm_num

theorem assignStep_keys_nodup {val : ℤ → ShiftId → Option ℚ} {e : ℤ}
    {acc : List (ShiftId × ℤ)} {s : ShiftId}
    (h : (acc.map Prod.fst).Nodup) :
    ((assignStep val e acc s).map Prod.fst).Nodup := by
  unfold assignStep
  by_cases ha : isAssigned val e s = true
  · rw [if_pos ha]
    by_cases hl : alookup acc s = none
    · rw [if_pos hl, List.map_append, List.nodup_append]
      refine ⟨h, List.nodup_singleton _, ?_⟩
      intro a haa hab
      simp only [List.map_cons, List.map_nil, List.mem_singleton] at hab
      subst hab
      exact (alookup_eq_none_iff.mp hl) haa
    · rw [if_neg hl]
      exact h
  · rw [if_neg ha]
    exact h

theorem assignEmployee_keys_nodup {val : ℤ → ShiftId → Option ℚ} {e : ℤ} :
    ∀ {S : List ShiftId} {acc : List (ShiftId × ℤ)},
      (acc.map Prod.fst).Nodup →
      ((assignEmployee val acc e S).map Prod.fst).Nodup := by
  intro S
  induction S with
  | nil => intro acc h; exact h
  | cons s S ih =>
    intro acc h
    exact ih (assignStep_keys_nodup h)

theorem extract_keys_nodup (val : ℤ → ShiftId → Option ℚ) (V : List ℤ)
    (S : List ShiftId) :
    ((extractAssignments val V S).map Prod.fst).Nodup := by
  have haux : ∀ (W : List ℤ) (acc : List (ShiftId × ℤ)),
      (acc.map Prod.fst).Nodup →
      (((W.foldl (fun acc e => assignEmployee val acc e S) acc)).map Prod.fst).Nodup := by
    intro W
    induction W with
    | nil => intro acc h; exact h
    | cons e W ih => intro acc h; exact ih _ (assignEmployee_keys_nodup h)
  exact haux V [] (by simp)

theorem alookup_assignStep_some {val : ℤ → ShiftId → Option ℚ} {e : ℤ}
    {acc : List (ShiftId × ℤ)} {s₀ s : ShiftId} {v : ℤ}
    (h : alookup acc s = some v) :
    alookup (assignStep val e acc s₀) s = some v := by
  unfold assignStep
  by_cases ha : isAssigned val e s₀ = true
  · rw [if_pos ha]
    by_cases hl : alookup acc s₀ = none
    · rw [if_pos hl, alookup_append, h]
      rfl
    · rw [if_neg hl]
      exact h
  · rw [if_neg ha]
    exact h

theorem alookup_assignEmployee_some {val : ℤ → ShiftId → Option ℚ} {e : ℤ} :
    ∀ {S : List ShiftId} {acc : List (ShiftId × ℤ)} {s : ShiftId} {v : ℤ},
      alookup acc s = some v →
      alookup (assignEmployee val acc e S) s = some v := by
  intro S
  induction S with
  | nil => intro acc s v h; exact h
  | cons s₀ S ih => intro acc s v h; exact ih (alookup_assignStep_some h)

theorem alookup_assignEmployee_none {val : ℤ → ShiftId → Option ℚ} {e : ℤ} :
    ∀ {S : List ShiftId} {acc : List (ShiftId × ℤ)} {s : ShiftId},
      alookup acc s = none →
      alookup (assignEmployee val acc e S) s =
        if s ∈ S ∧ isAssigned val e s = true then some e else none := by
  intro S
  induction S with
  | nil =>
    intro acc s h
    simp only [List.not_mem_nil, false_and, if_false]
    exact h
  | cons s₀ S ih =>
    intro acc s h
    show alookup (assignEmployee val (assignStep val e acc s₀) e S) s = _
    by_cases hs : s = s₀
    · subst hs
      by_cases ha : isAssigned val e s = true
      · have hsome : alookup (assignStep val e acc s) s = some e := by
          unfold assignStep
          rw [if_pos ha, if_pos h, alookup_append, h]
          simp [alookup]
        rw [alookup_assignEmployee_some hsome, if_pos ⟨List.mem_cons_self _ _, ha⟩]
      · have hnone : alookup (assignStep val e acc s) s = alookup acc s := by
          unfold assignStep
          rw [if_neg ha]
        rw [ih (hnone.trans h)]
        have hc : ¬ (s ∈ S ∧ isAssigned val e s = true) := fun hc => ha hc.2
        have hc' : ¬ (s ∈ s :: S ∧ isAssigned val e s = true) := fun hc => ha hc.2
        rw [if_neg hc, if_neg hc']
    · have hstep : alookup (assignStep val e acc s₀) s = alookup acc s := by
        unfold assignStep
        by_cases ha : isAssigned val e s₀ = true
        · rw [if_pos ha]
          by_cases hl : alookup acc s₀ = none
          · rw [if_pos hl, alookup_append]
            have hns : ¬ s₀ = s := fun hh => hs hh.symm
            have hsingle : alookup [(s₀, e)] s = none := by
              simp [alookup, hns]
            rw [hsingle]
            cases alookup acc s <;> rfl
          · rw [if_neg hl]
        · rw [if_neg ha]
      rw [ih (hstep.trans h)]
      by_cases hm : s ∈ S
      · have : s ∈ s₀ :: S := List.mem_cons_of_mem _ hm
        by_cases ha : isAssigned val e s = true
        · rw [if_pos ⟨hm, ha⟩, if_pos ⟨this, ha⟩]
        · rw [if_neg (fun hc => ha hc.2), if_neg (fun hc => ha hc.2)]
      · have hnotc : ¬ s ∈ s₀ :: S := by
          intro hc
          rcases List.mem_cons.mp hc with hc | hc
          · exact hs hc
          · exact hm hc
        rw [if_neg (fun hc => hm hc.1), if_neg (fun hc => hnotc hc.1)]

theorem alookup_foldl_some {val : ℤ → ShiftId → Option ℚ} {S : List ShiftId} :
    ∀ {V : List ℤ} {acc : List (ShiftId × ℤ)} {s : ShiftId} {v : ℤ},
      alookup acc s = some v →
      alookup (V.foldl (fun acc e => assignEmployee val acc e S) acc) s = some v := by
  intro V
  induction V with
  | nil => intro acc s v h; exact h
  | cons e V ih => intro acc s v h; exact ih (alookup_assignEmployee_some h)

theorem firstAssigned_cons (val : ℤ → ShiftId → Option ℚ) (S : List ShiftId)
    (e : ℤ) (V : List ℤ) (s : ShiftId) :
    firstAssigned val S (e :: V) s =
      if s ∈ S ∧ isAssigned val e s = true then some e
      else firstAssigned val S V s := rfl

theorem extract_lookup_aux {val : ℤ → ShiftId → Option ℚ} {S : List ShiftId} :
    ∀ {V : List ℤ} {acc : List (ShiftId × ℤ)} {s : ShiftId},
      alookup acc s = none →
      alookup (V.foldl (fun acc e => assignEmployee val acc e S) acc) s =
        firstAssigned val S V s := by
  intro V
  induction V with
  | nil => intro acc s h; exact h
  | cons e V ih =>
    intro acc s h
    show alookup (V.foldl (fun acc e => assignEmployee val acc e S)
      (assignEmployee val acc e S)) s = _
    by_cases hc : s ∈ S ∧ isAssigned val e s = true
    · have hsome : alookup (assignEmployee val acc e S) s = some e := by
        rw [alookup_assignEmployee_none h, if_pos hc]
      rw [alookup_foldl_some hsome, firstAssigned_cons, if_pos hc]
    · have hnone : alookup (assignEmployee val acc e S) s = none := by
        rw [alookup_assignEmployee_none h, if_neg hc]
      rw [ih hnone, firstAssigned_cons, if_neg hc]

theorem extract_lookup (val : ℤ → ShiftId → Option ℚ) (V : List ℤ)
    (S : List ShiftId) (s : ShiftId) :
    alookup (extractAssignments val V S) s = firstAssigned val S V s :=
  extract_lookup_aux rfl

theorem firstAssigned_eq_some {val : ℤ → ShiftId → Option ℚ} {S : List ShiftId}
    {s : ShiftId} :
    ∀ {V : List ℤ},
      (∀ e1 ∈ V, ∀ e2 ∈ V, s ∈ S → isAssigned val e1 s = true →
        isAssigned val e2 s = true → e1 = e2) →
      ∀ {e : ℤ}, (firstAssigned val S V s = some e ↔
        (e ∈ V ∧ s ∈ S ∧ isAssigned val e s = true)) := by
  intro V
  induction V with
  | nil =>
    intro _ e
    simp [firstAssigned]
  | cons e₀ V ih =>
    intro huniq e
    have huniq' : ∀ e1 ∈ V, ∀ e2 ∈ V, s ∈ S → isAssigned val e1 s = true →
        isAssigned val e2 s = true → e1 = e2 := by
      intro e1 h1 e2 h2
      exact huniq e1 (List.mem_cons_of_mem _ h1) e2 (List.mem_cons_of_mem _ h2)
    show (if s ∈ S ∧ isAssigned val e₀ s = true then some e₀
      else firstAssigned val S V s) = some e ↔ _
    by_cases hc : s ∈ S ∧ isAssigned val e₀ s = true
    · rw [if_pos hc]
      constructor
      · intro h
        injection h with h
        subst h
        exact ⟨List.mem_cons_self _ _, hc⟩
      · rintro ⟨hmem, hsS, hA⟩
        rcases List.mem_cons.mp hmem with rfl | hmem
        · rfl
        · have : e₀ = e := huniq e₀ (List.mem_cons_self _ _) e
            (List.mem_cons_of_mem _ hmem) hsS hc.2 hA
          rw [this]
    · rw [if_neg hc, ih huniq']
      constructor
      · rintro ⟨hmem, hsS, hA⟩
        exact ⟨List.mem_cons_of_mem _ hmem, hsS, hA⟩
      · rintro ⟨hmem, hsS, hA⟩
        rcases List.mem_cons.mp hmem with rfl | hmem
        · exact absurd ⟨hsS, hA⟩ hc
        · exact ⟨hmem, hsS, hA⟩

theorem mem_iff_alookup {α β : Type} [DecidableEq α] :
    ∀ {l : List (α × β)}, (l.map Prod.fst).Nodup → ∀ {a : α} {b : β},
      ((a, b) ∈ l ↔ alookup l a = some b) := by
  intro l
  induction l with
  | nil => intro _ a b; simp [alookup]
  | cons p l ih =>
    intro hnd a b
    rcases p with ⟨x, y⟩
    rw [List.map_cons, List.nodup_cons] at hnd
    by_cases hx : x = a
    · subst hx
      rw [List.mem_cons]
      constructor
      · intro h
        rcases h with h | h
        · injection h with h1 h2
          subst h2
          simp [alookup]
        · exact absurd (List.mem_map_of_mem Prod.fst h) hnd.1
      · intro h
        simp only [alookup, if_pos] at h
        injection h with h
        subst h
        exact Or.inl rfl
    · rw [List.mem_cons]
      have halt : alookup ((x, y) :: l) a = alookup l a := by
        simp [alookup, hx]
      rw [halt, ← ih hnd.2]
      constructor
      · intro h
        rcases h with h | h
        · injection h with h1 h2
          exact absurd h1.symm hx
        · exact h
      · exact Or.inr

theorem pair_le_sum {l : List ℤ} {a b : ℤ} (h : l.Nodup) (ha : a ∈ l)
    (hb : b ∈ l) (hne : a ≠ b) (f : ℤ → ℚ) (h0 : ∀ x ∈ l, 0 ≤ f x) :
    f a + f b ≤ (l.map f).sum := by
  have hperm : List.Perm l (a :: l.erase a) := List.perm_cons_erase ha
  have hb' : b ∈ l.erase a := (List.mem_erase_of_ne (Ne.symm hne)).mpr hb
  have h1 : (l.map f).sum = ((a :: l.erase a).map f).sum :=
    List.Perm.sum_eq (hperm.map f)
  rw [h1]
  simp only [List.map_cons, List.sum_cons]
  have hle : f b ≤ ((l.erase a).map f).sum := by
    apply List.single_le_sum
    · intro q hq
      rw [List.mem_map] at hq
      obtain ⟨y, hy, rfl⟩ := hq
      exact h0 y (List.mem_of_mem_erase hy)
    · exact List.mem_map_of_mem f hb'
  linarith

theorem sum_mul_binary {S : List ShiftId} {g : ShiftId → ℚ} {x : ShiftId → ℚ}
    (hb : ∀ s ∈ S, x s = 0 ∨ x s = 1) :
    (S.map (fun s => g s * x s)).sum = ((S.filter (fun s => x s = 1)).map g).sum := by
  induction S with
  | nil => simp
  | cons s S ih =>
    have hb' : ∀ s ∈ S, x s = 0 ∨ x s = 1 :=
      fun s hs => hb s (List.mem_cons_of_mem _ hs)
    rcases hb s (List.mem_cons_self _ _) with h | h
    · have hf : (s :: S).filter (fun s => x s = 1) = S.filter (fun s => x s = 1) := by
        rw [List.filter_cons, if_neg]
        simp [h]
      rw [hf, List.map_cons, List.sum_cons, h, ih hb']
      ring
    · have hf : (s :: S).filter (fun s => x s = 1)
          = s :: S.filter (fun s => x s = 1) := by
        rw [List.filter_cons, if_pos]
        simp [h]
      rw [hf, List.map_cons, List.sum_cons, List.map_cons, List.sum_cons, h,
        ih hb']
      ring

theorem sum_binary_count {S : List ShiftId} {x : ShiftId → ℚ}
    (hb : ∀ s ∈ S, x s = 0 ∨ x s = 1) :
    (S.map (fun s => x s)).sum = ((S.filter (fun s => x s = 1)).length : ℚ) := by
  induction S with
  | nil => simp
  | cons s S ih =>
    have hb' : ∀ s ∈ S, x s = 0 ∨ x s = 1 :=
      fun s hs => hb s (List.mem_cons_of_mem _ hs)
    rcases hb s (List.mem_cons_self _ _) with h | h
    · have hf : (s :: S).filter (fun s => x s = 1) = S.filter (fun s => x s = 1) := by
        rw [List.filter_cons, if_neg]
        simp [h]
      rw [hf, List.map_cons, List.sum_cons, h, ih hb']
      ring
    · have hf : (s :: S).filter (fun s => x s = 1)
          = s :: S.filter (fun s => x s = 1) := by
        rw [List.filter_cons, if_pos]
        simp [h]
      rw [hf, List.map_cons, List.sum_cons, h, ih hb', List.length_cons]
      push_cast
      ring

theorem mem_assignedShiftsOf {m : List (ShiftId × ℤ)} {e : ℤ} {s : ShiftId} :
    s ∈ assignedShiftsOf m e ↔ (s, e) ∈ m := by
  unfold assignedShiftsOf
  rw [List.mem_map]
  constructor
  · rintro ⟨⟨s1, e1⟩, hp, rfl⟩
    have hm := List.mem_filter.mp hp
    have he1 : e1 = e := by simpa using hm.2
    subst he1
    exact hm.1
  · intro h
    exact ⟨(s, e), List.mem_filter.mpr ⟨h, by simp⟩, rfl⟩

set_option maxHeartbeats 1000000 in
/-- C1.  Whenever the solver oracle reports variable values forming a
feasible solution of the binary program that `solve_assignment` formulates
(which PuLP guarantees for an optimal status), the returned mapping assigns
each shift key to exactly one employee (its keys are free of duplicates),
and for every employee in the mapping: pre-existing hours plus the summed
durations of the newly assigned shifts stay within 40, the union of
pre-existing and newly assigned distinct days has at most 5 days, and every
day carries at most one shift counting pre-existing and new ones.  The
shift-id list is assumed duplicate-free, as `fill_unfilled_shifts`
guarantees by deduplicating before solving. -/
theorem solver_output_respects_constraints
    (oracle : MilpProblem → SolverResult) (us : List UnfilledShift)
    (ps : List EmployeeProfile) (fs : List FilledShift)
    (x : ℤ → ShiftId → ℚ) (dayv : ℤ → ℤ → ℚ)
    (hS : (shiftIdsOf us).Nodup)
    (hxval : (oracle (mkProblem us ps fs)).xval = fun e s => some (x e s))
    (hfeas : Feasible (mkProblem us ps fs) x dayv) :
    ((solve_assignment oracle us ps fs).map Prod.fst).Nodup ∧
    (∀ e, e ∈ (solve_assignment oracle us ps fs).map Prod.snd →
      empWeekHours fs e +
        ((assignedShiftsOf (solve_assignment oracle us ps fs) e).map
          (shiftDurationLookup us)).sum ≤ 40 ∧
      (empWeekDays fs e ∪ newDaysOf (solve_assignment oracle us ps fs) e).card ≤ 5 ∧
      (∀ d, empDayShifts fs e d
        + newCountOn (solve_assignment oracle us ps fs) e d ≤ 1)) := by
  unfold Feasible at hfeas
  simp only [mkProblem] at hfeas
  obtain ⟨hbin, hdbin, hcon1, hcon2, hlink1, hlink2, hcap, hcon4⟩ := hfeas
  by_cases h0 : (validEmployeesOf ps fs).isEmpty = true
  · have hm : solve_assignment oracle us ps fs = [] := by
      simp [solve_assignment, h0]
    rw [hm]
    simp
  · by_cases h1 : (oracle (mkProblem us ps fs)).status = -1
    · have hm : solve_assignment oracle us ps fs = [] := by
        simp [solve_assignment, h0, h1]
      rw [hm]
      simp
    · have hm : solve_assignment oracle us ps fs =
          extractAssignments (fun e s => some (x e s)) (validEmployeesOf ps fs)
            (shiftIdsOf us) := by
        simp only [solve_assignment]
        rw [if_neg (by simp [h0]), if_neg h1, hxval]
      rw [hm]
      set V := validEmployeesOf ps fs with hVdef
      set S := shiftIdsOf us with hSdef
      set m := extractAssignments (fun e s => some (x e s)) V S with hmdef
      have hVnd : V.Nodup := by
        rw [hVdef]
        unfold validEmployeesOf employeesOf
        exact (List.nodup_dedup _).filter _
      have hkeys : (m.map Prod.fst).Nodup := by
        rw [hmdef]
        exact extract_keys_nodup _ V S
      have huniq : ∀ s : ShiftId, ∀ e1 ∈ V, ∀ e2 ∈ V, s ∈ S →
          isAssigned (fun e s => some (x e s)) e1 s = true →
          isAssigned (fun e s => some (x e s)) e2 s = true → e1 = e2 := by
        intro s e1 he1 e2 he2 hsS hA1 hA2
        have hx1 : x e1 s = 1 := (isAssigned_some_iff (hbin e1 he1 s hsS)).mp hA1
        have hx2 : x e2 s = 1 := (isAssigned_some_iff (hbin e2 he2 s hsS)).mp hA2
        by_contra hne
        have hnn : ∀ q ∈ V, 0 ≤ (fun e => x e s) q := by
          intro q hq
          show 0 ≤ x q s
          rcases hbin q hq s hsS with hh | hh <;> rw [hh] <;> norm_num
        have hps : x e1 s + x e2 s ≤ (V.map (fun e => x e s)).sum :=
          pair_le_sum hVnd he1 he2 hne (fun e => x e s) hnn
        have hc1 := hcon1 s hsS
        rw [hx1, hx2] at hps
        linarith
      have hchar : ∀ s e, ((s, e) ∈ m ↔ (e ∈ V ∧ s ∈ S ∧ x e s = 1)) := by
        intro s e
        rw [mem_iff_alookup hkeys, hmdef, extract_lookup,
          firstAssigned_eq_some (huniq s)]
        constructor
        · rintro ⟨heV, hsS, hA⟩
          exact ⟨heV, hsS, (isAssigned_some_iff (hbin e heV s hsS)).mp hA⟩
        · rintro ⟨heV, hsS, hx1⟩
          exact ⟨heV, hsS, (isAssigned_some_iff (hbin e heV s hsS)).mpr hx1⟩
      have hdayS : ∀ s ∈ S, s.2 ∈ daysOfList S := by
        intro s hs
        unfold daysOfList
        rw [List.mem_toFinset]
        exact List.mem_map_of_mem _ hs
      refine ⟨hkeys, ?_⟩
      intro e he
      rw [List.mem_map] at he
      obtain ⟨p, hp, rfl⟩ := he
      have hmm := mem_extractAssignments (hmdef ▸ hp)
      have heV := hmm.1
      have hmemiff : ∀ s, (s ∈ assignedShiftsOf m p.2 ↔
          s ∈ S.filter (fun s => x p.2 s = 1)) := by
        intro s
        rw [mem_assignedShiftsOf, hchar, List.mem_filter]
        constructor
        · rintro ⟨_, hsS, hx1⟩
          exact ⟨hsS, by simp [hx1]⟩
        · rintro ⟨hsS, hxd⟩
          refine ⟨heV, hsS, ?_⟩
          simpa using hxd
      have hnd1 : (assignedShiftsOf m p.2).Nodup :=
        ((List.filter_sublist m).map Prod.fst).nodup hkeys
      have hnd2 : (S.filter (fun s => x p.2 s = 1)).Nodup := hS.filter _
      have hperm : List.Perm (assignedShiftsOf m p.2)
          (S.filter (fun s => x p.2 s = 1)) :=
        (List.perm_ext_iff_of_nodup hnd1 hnd2).mpr hmemiff
      refine ⟨?_, ?_, ?_⟩
      · have hsum : ((assignedShiftsOf m p.2).map (shiftDurationLookup us)).sum
            = (S.map (fun s => shiftDurationLookup us s * x p.2 s)).sum := by
          rw [List.Perm.sum_eq (hperm.map (shiftDurationLookup us))]
          exact (sum_mul_binary (fun s hs => hbin p.2 heV s hs)).symm
        rw [hsum]
        exact hcon2 p.2 heV
      · have hone : ∀ d ∈ newDaysOf m p.2, dayv p.2 d = 1 := by
          intro d hd
          unfold newDaysOf at hd
          rw [List.mem_toFinset, List.mem_map] at hd
          obtain ⟨s, hsm, rfl⟩ := hd
          have hsf := (hmemiff s).mp hsm
          have hsS := List.mem_of_mem_filter hsf
          have hx1 : x p.2 s = 1 := by
            have := (List.mem_filter.mp hsf).2
            simpa using this
          have hge := hlink1 p.2 heV s hsS
          rcases hdbin p.2 heV s.2 (hdayS s hsS) with hz | ho
          · exfalso
            rw [hx1, hz] at hge
            norm_num at hge
          · exact ho
        have hsubn : newDaysOf m p.2 ⊆ daysOfList S := by
          intro d hd
          unfold newDaysOf at hd
          rw [List.mem_toFinset, List.mem_map] at hd
          obtain ⟨s, hsm, rfl⟩ := hd
          exact hdayS s (List.mem_of_mem_filter ((hmemiff s).mp hsm))
        have hcard : ((newDaysOf m p.2).card : ℚ)
            ≤ (daysOfList S).sum (fun d => dayv p.2 d) := by
          have he1 : (newDaysOf m p.2).sum (fun d => dayv p.2 d)
              = ((newDaysOf m p.2).card : ℚ) := by
            rw [Finset.sum_congr rfl hone]
            simp
          rw [← he1]
          refine Finset.sum_le_sum_of_subset_of_nonneg hsubn ?_
          intro d hd _
          rcases hdbin p.2 heV d hd with hz | ho
          · rw [hz]
          · rw [ho]
            norm_num
        have hcap5 := hcap p.2 heV
        have hcu : (((empWeekDays fs p.2 ∪ newDaysOf m p.2).card : ℕ) : ℚ) ≤ 5 := by
          have hc2 := Finset.card_union_le (empWeekDays fs p.2) (newDaysOf m p.2)
          have hc3 : (((empWeekDays fs p.2 ∪ newDaysOf m p.2).card : ℕ) : ℚ)
              ≤ ((empWeekDays fs p.2).card : ℚ) + ((newDaysOf m p.2).card : ℚ) := by
            exact_mod_cast hc2
          linarith
        exact_mod_cast hcu
      · intro d
        by_cases hd : d ∈ daysOfList S
        · have hc4 := hcon4 p.2 heV d hd
          have hcnt : ((S.filter (fun s => s.2 = d)).map (fun s => x p.2 s)).sum
              = (((S.filter (fun s => s.2 = d)).filter
                  (fun s => x p.2 s = 1)).length : ℚ) :=
            sum_binary_count (fun s hs => hbin p.2 heV s (List.mem_of_mem_filter hs))
          have hff : ((S.filter (fun s => x p.2 s = 1)).filter
                (fun s => s.2 = d)).length
              = ((S.filter (fun s => s.2 = d)).filter
                (fun s => x p.2 s = 1)).length := by
            rw [List.filter_filter, List.filter_filter]
            apply congrArg
            apply List.filter_congr
            intro s _
            rw [Bool.and_comm]
          have hnewc : (newCountOn m p.2 d : ℚ)
              = (((S.filter (fun s => s.2 = d)).filter
                  (fun s => x p.2 s = 1)).length : ℚ) := by
            unfold newCountOn
            rw [List.Perm.length_eq (hperm.filter _), hff]
          rw [hcnt] at hc4
          have hfin : ((empDayShifts fs p.2 d : ℕ) : ℚ)
              + (newCountOn m p.2 d : ℚ) ≤ 1 := by
            rw [hnewc]
            exact hc4
          exact_mod_cast hfin
        · have hzero : newCountOn m p.2 d = 0 := by
            unfold newCountOn
            rw [List.length_eq_zero]
            refine List.filter_eq_nil_iff.mpr ?_
            intro s hsm
            simp only [decide_eq_true_eq]
            intro hs2
            apply hd
            have hsf := (hmemiff s).mp hsm
            rw [← hs2]
            exact hdayS s (List.mem_of_mem_filter hsf)
          rw [hzero]
          have hnotex := (mem_validEmployees (hVdef ▸ heV)).2
          have hle1 := not_excluded_daily fs p.2 hnotex d
          omega

/-- Witness for C1: the zero solution (assign nothing) is feasible for a
concrete instance, and the extracted mapping satisfies every reported
bound. -/
theorem solver_output_respects_constraints_witness :
    (shiftIdsOf [oneShift]).Nodup ∧
    ((zeroOracle (mkProblem [oneShift] [profile7] [])).xval
      = fun e s => some ((fun (_ : ℤ) (_ : ShiftId) => (0 : ℚ)) e s)) ∧
    Feasible (mkProblem [oneShift] [profile7] []) (fun _ _ => 0) (fun _ _ => 0) ∧
    (((solve_assignment zeroOracle [oneShift] [profile7] []).map Prod.fst).Nodup ∧
     (∀ e, e ∈ (solve_assignment zeroOracle [oneShift] [profile7] []).map Prod.snd →
       empWeekHours [] e +
         ((assignedShiftsOf (solve_assignment zeroOracle [oneShift] [profile7] []) e).map
           (shiftDurationLookup [oneShift])).sum ≤ 40 ∧
       (empWeekDays [] e ∪
         newDaysOf (solve_assignment zeroOracle [oneShift] [profile7] []) e).card ≤ 5 ∧
       (∀ d, empDayShifts [] e d
         + newCountOn (solve_assignment zeroOracle [oneShift] [profile7] []) e d ≤ 1))) := by
  have h1 : (shiftIdsOf [oneShift]).Nodup := by decide
  have h2 : (zeroOracle (mkProblem [oneShift] [profile7] [])).xval
      = fun e s => some ((fun (_ : ℤ) (_ : ShiftId) => (0 : ℚ)) e s) := rfl
  have h3 : Feasible (mkProblem [oneShift] [profile7] [])
      (fun _ _ => 0) (fun _ _ => 0) := by
    unfold Feasible
    simp only [mkProblem]
    refine ⟨?_, ?_, ?_, ?_, ?_, ?_, ?_, ?_⟩ <;> intros <;>
      simp [empWeekHours, empWeekDays, empDayShifts, daysOfList] <;>
      norm_num
  exact ⟨h1, h2, h3,
    solver_output_respects_constraints zeroOracle [oneShift] [profile7] []
      (fun _ _ => 0) (fun _ _ => 0) h1 h2 h3⟩

end Sched
